import Mathlib

/-!
# Robin Hood hash table (src/store/robinhood_hashtable.hpp)

A shallow embedding of `store::RobinhoodHashTable<Key, Value, Hash>` and of its
operations `Put`, `Get` and `Remove`, followed by the properties of its specification.

Modelling decisions, all read off the source:

* `std::vector<Entry> table_` is the map from a slot index to the slot's contents;
  only the indices below `capacity_` are slots of the vector.
* `std::unordered_map<int, std::list<Entry>> overflow_buckets_` is the map from a
  bucket index to the chain stored under it, a bucket without a chain giving the
  empty chain (`count(h)` followed by a scan reads the same as scanning that chain,
  and `operator[]` default-constructs exactly the empty chain).
* `uint8_t distance` is a number below 256 and every write to it is reduced mod 2^8.
* `h_initial` holds the bucket index `h` that `Put` hands to the `Entry` constructor
  (the source declares the field with the alias `HashValue`).
* `h`, `index`, `current`, `next` and `h_initial` are natural numbers; the `int`
  arithmetic on them stays far below 2^31 for the capacities an `int` can name,
  except the subtraction `index - h_initial`, which is done in the integers.
* The two `while (true)` loops take a fuel argument and give `none` when it runs out;
  a call returns when some amount of fuel gives `some` state.
-/

namespace store

variable {K V : Type}

/-! ## The embedding

`Put`, `Get` and `Remove` follow the source for `capacity_ > 0`. At `capacity_ = 0` the
source evaluates `hash_fn_(key) % capacity_`, a division by zero, and no call returns,
whereas `%` on `Nat` is total: the embedding describes the source on the states with
`capacity_ > 0` only. -/

/-- Narrowing conversion of an `int` to `uint8_t`. -/
def toUInt8 (z : Int) : Fin 256 :=
  ⟨(z % 256).toNat, by omega⟩

/-- The slot record `struct Entry`. -/
structure Entry (K V : Type) where
  h_initial : Nat
  distance : Fin 256
  occupied : Bool
  key : K
  value : V

/-- The data members of `class RobinhoodHashTable`. -/
structure RobinhoodHashTable (K V : Type) where
  capacity_ : Nat
  Dm_ : Nat
  table_ : Nat → Entry K V
  overflow_buckets_ : Nat → List (Entry K V)
  hash_fn_ : K → Nat

/-- `void transactional_swap(Entry &a, Entry &b)`: the pair of the new `a` and the
new `b`. -/
def transactional_swap (a b : Entry K V) : Entry K V × Entry K V :=
  (b, a)

/-- The `while (true)` loop of `Put`: `h` is the routing variable and `current`
the candidate entry. -/
def putLoop : Nat → RobinhoodHashTable K V → Nat → Entry K V → Option (RobinhoodHashTable K V)
  | 0, _, _, _ => none
  | fuel + 1, t, h, current =>
    if current.distance.val > t.Dm_ then
      let bucket := t.overflow_buckets_ h ++ [current]
      some { t with overflow_buckets_ := Function.update t.overflow_buckets_ h bucket }
    else
      let index := (h + current.distance.val) % t.capacity_
      if (t.table_ index).occupied = false then
        some { t with table_ := Function.update t.table_ index current }
      else
        let existing := t.table_ index
        if existing.distance.val < current.distance.val then
          let swapped := transactional_swap existing current
          putLoop fuel { t with table_ := Function.update t.table_ index swapped.1 }
            swapped.2.h_initial
            { swapped.2 with distance := toUInt8 (swapped.2.distance.val + 1) }
        else
          putLoop fuel t h { current with distance := toUInt8 (current.distance.val + 1) }

/-- `void Put(const Key& key, Value&& value)`. -/
def Put (fuel : Nat) (t : RobinhoodHashTable K V) (key : K) (value : V) :
    Option (RobinhoodHashTable K V) :=
  let h := t.hash_fn_ key % t.capacity_
  putLoop fuel t h ⟨h, 0, true, key, value⟩

/-- The primary-table probe `for (int d = 0; d <= Dm_; ++d)` that `Get` and `Remove`
both open with: the first `d` whose slot is occupied and holds `key`. -/
def probe [DecidableEq K] (t : RobinhoodHashTable K V) (key : K) (h : Nat) : Option Nat :=
  (List.range (t.Dm_ + 1)).find? fun d =>
    (t.table_ ((h + d) % t.capacity_)).occupied &&
      decide ((t.table_ ((h + d) % t.capacity_)).key = key)

/-- `auto Get(const Key& key) -> std::optional<Value>`. -/
def Get [DecidableEq K] (t : RobinhoodHashTable K V) (key : K) : Option V :=
  let h := t.hash_fn_ key % t.capacity_
  match probe t key h with
  | some d => some (t.table_ ((h + d) % t.capacity_)).value
  | none =>
    match (t.overflow_buckets_ h).find? fun entry => decide (entry.key = key) with
    | some entry => some entry.value
    | none => none

/-- The backward-shift `while (true)` loop of `Remove`; gives the table and the final
`current`. -/
def shiftLoop : Nat → RobinhoodHashTable K V → Nat → Nat → Option (RobinhoodHashTable K V × Nat)
  | 0, _, _, _ => none
  | fuel + 1, t, h, current =>
    let next := (current + 1) % t.capacity_
    if next = (h + t.Dm_ + 1) % t.capacity_ ∨ (t.table_ next).occupied = false then
      some (t, current)
    else if (t.table_ next).distance.val > 0 then
      let moved : Entry K V :=
        { t.table_ next with distance := toUInt8 ((t.table_ next).distance.val - 1 : Int) }
      shiftLoop fuel { t with table_ := Function.update t.table_ current moved } h next
    else
      some (t, current)

/-- `void Remove(const Key& key)`. -/
def Remove [DecidableEq K] (fuel : Nat) (t : RobinhoodHashTable K V) (key : K) :
    Option (RobinhoodHashTable K V) :=
  let h := t.hash_fn_ key % t.capacity_
  match probe t key h with
  | some d =>
    let index := (h + d) % t.capacity_
    match t.overflow_buckets_ h with
    | front :: rest =>
      let promoted : Entry K V :=
        { front with distance := toUInt8 ((index : Int) - (front.h_initial : Int)) }
      some { t with
        table_ := Function.update t.table_ index promoted
        overflow_buckets_ := Function.update t.overflow_buckets_ h rest }
    | [] =>
      match shiftLoop fuel t h index with
      | some (t1, current) =>
        let vacated : Entry K V := { t1.table_ current with occupied := false }
        some { t1 with table_ := Function.update t1.table_ current vacated }
      | none => none
  | none =>
    let bucket := (t.overflow_buckets_ h).eraseP fun entry => decide (entry.key = key)
    some { t with overflow_buckets_ := Function.update t.overflow_buckets_ h bucket }

/-! ## The invariants of the specification

`home` of the specification is the field `h_initial`; "hash(key) mod capacity" is
`t.hash_fn_ key % t.capacity_`. -/

/-- Invariant 1: each occupied slot `i` holds an entry with `home = hash(key) mod capacity`,
`distance <= Dm` and `i = (home + distance) mod capacity`. -/
def Inv1 (t : RobinhoodHashTable K V) : Prop :=
  ∀ i, i < t.capacity_ → (t.table_ i).occupied = true →
    (t.table_ i).h_initial = t.hash_fn_ (t.table_ i).key % t.capacity_ ∧
    (t.table_ i).distance.val ≤ t.Dm_ ∧
    i = ((t.table_ i).h_initial + (t.table_ i).distance.val) % t.capacity_

/-- Invariant 2: every overflow entry sits in the chain of its own home: the chain
holding it is the one keyed by its home, and its home is `hash(key) mod capacity`. -/
def Inv2 (t : RobinhoodHashTable K V) : Prop :=
  ∀ b e, e ∈ t.overflow_buckets_ b →
    e.h_initial = b ∧ e.h_initial = t.hash_fn_ e.key % t.capacity_

/-- Invariant 3: no key occurs twice, whether in two occupied slots, in a slot and a
chain, in two chains or twice in one chain. -/
def Inv3 (t : RobinhoodHashTable K V) : Prop :=
  (∀ i, i < t.capacity_ → ∀ j, j < t.capacity_ → (t.table_ i).occupied = true →
    (t.table_ j).occupied = true → i ≠ j → (t.table_ i).key ≠ (t.table_ j).key) ∧
  (∀ i b e, i < t.capacity_ → (t.table_ i).occupied = true → e ∈ t.overflow_buckets_ b →
    (t.table_ i).key ≠ e.key) ∧
  (∀ b c e f, b ≠ c → e ∈ t.overflow_buckets_ b → f ∈ t.overflow_buckets_ c →
    e.key ≠ f.key) ∧
  (∀ b, (t.overflow_buckets_ b).Pairwise fun e f => e.key ≠ f.key)

/-- The displacement bound alone: each occupied slot `i` holds an entry with
`distance <= Dm` and `i = (home + distance) mod capacity`. -/
def DispBound (t : RobinhoodHashTable K V) : Prop :=
  ∀ i, i < t.capacity_ → (t.table_ i).occupied = true →
    (t.table_ i).distance.val ≤ t.Dm_ ∧
      i = ((t.table_ i).h_initial + (t.table_ i).distance.val) % t.capacity_

/-- Each occupied slot holds an entry whose home is `hash(key) mod capacity`. -/
def SlotHome (t : RobinhoodHashTable K V) : Prop :=
  ∀ i, i < t.capacity_ → (t.table_ i).occupied = true →
    (t.table_ i).h_initial = t.hash_fn_ (t.table_ i).key % t.capacity_

/-- Each entry of the chain keyed by `b` has `home = b = hash(key) mod capacity`. -/
def ChainHome (t : RobinhoodHashTable K V) : Prop :=
  ∀ b e, e ∈ t.overflow_buckets_ b → e.h_initial = b ∧ b = t.hash_fn_ e.key % t.capacity_

/-- Each entry of a chain is flagged occupied: the representation invariant of the
chains, whose entries are all copies of a candidate that `Put` built with
`Entry(k, v, h, d)` or took out of an occupied slot. -/
def ChainLive (t : RobinhoodHashTable K V) : Prop :=
  ∀ b e, e ∈ t.overflow_buckets_ b → e.occupied = true

/-! ## What is stored, and where `Get` looks for it -/

/-- Key `k` is stored with value `v`: in an occupied primary slot or in some chain. -/
def Stored (t : RobinhoodHashTable K V) (k : K) (v : V) : Prop :=
  (∃ i, i < t.capacity_ ∧ (t.table_ i).occupied = true ∧ (t.table_ i).key = k ∧
    (t.table_ i).value = v) ∨
  (∃ b e, e ∈ t.overflow_buckets_ b ∧ e.key = k ∧ e.value = v)

/-- The entry `e` is flagged occupied and carries key `k` with value `v`. -/
def Entry.Holds (e : Entry K V) (k : K) (v : V) : Prop :=
  e.occupied = true ∧ e.key = k ∧ e.value = v

/-- Some occupied slot other than `idx` holds `k` with `v`. -/
def InTableExcept (t : RobinhoodHashTable K V) (idx : Nat) (k : K) (v : V) : Prop :=
  ∃ i, i < t.capacity_ ∧ i ≠ idx ∧ (t.table_ i).Holds k v

/-- Some chain holds `k` with `v`. -/
def InChains (t : RobinhoodHashTable K V) (k : K) (v : V) : Prop :=
  ∃ b e, e ∈ t.overflow_buckets_ b ∧ e.key = k ∧ e.value = v

/-- Each occupied slot lies in the probe window of its key, whatever its distance
field says. -/
def SlotLay (t : RobinhoodHashTable K V) : Prop :=
  ∀ i, i < t.capacity_ → (t.table_ i).occupied = true →
    ∃ d, d ≤ t.Dm_ ∧ i = (t.hash_fn_ (t.table_ i).key % t.capacity_ + d) % t.capacity_

/-- Each chain entry lies in the chain that `Get` scans for its key. -/
def ChainLay (t : RobinhoodHashTable K V) : Prop :=
  ∀ b e, e ∈ t.overflow_buckets_ b → b = t.hash_fn_ e.key % t.capacity_

/-- Every stored entry lies where `Get` looks for its key. -/
def Lay (t : RobinhoodHashTable K V) : Prop :=
  SlotLay t ∧ ChainLay t

/-- Key `k` is stored with at most one value. -/
def Func (t : RobinhoodHashTable K V) (k : K) : Prop :=
  ∀ v w, Stored t k v → Stored t k w → v = w

/-- The indices of the occupied primary slots, in increasing order. -/
def occupiedSlots (t : RobinhoodHashTable K V) : List Nat :=
  (List.range t.capacity_).filter fun i => (t.table_ i).occupied

/-! ## Auxiliary definitions for the two loops -/

/-- Sum over the first `n` slots of the room left in the 8-bit distance field. -/
def slack (f : Nat → Entry K V) : Nat → Nat
  | 0 => 0
  | n + 1 => slack f n + (255 - (f n).distance.val)

/-- The entry that one backward-shift step writes into slot `c`: the successor slot's
entry with its distance decremented. -/
def shiftedEntry (t : RobinhoodHashTable K V) (c : Nat) : Entry K V :=
  { t.table_ ((c + 1) % t.capacity_) with
    distance := toUInt8 ((t.table_ ((c + 1) % t.capacity_)).distance.val - 1 : Int) }

/-- Number of backward-shift steps left before the successor slot is `e`, in a table
of `n` slots. -/
def stepsTo (n e c : Nat) : Nat :=
  if c < e then e - 1 - c else n - 1 - c + e

/-- The table with slot `c` marked unoccupied, as `Remove` leaves the slot where the
backward shift stops. -/
def vacate (t : RobinhoodHashTable K V) (c : Nat) : RobinhoodHashTable K V :=
  { t with table_ := Function.update t.table_ c { t.table_ c with occupied := false } }

/-! ## Reachable states -/

/-- A table as the constructor `RobinhoodHashTable(capacity, Dm)` leaves it: every
slot default-constructed, hence unoccupied, and no chain. -/
def Constructed (t : RobinhoodHashTable K V) : Prop :=
  (∀ i, i < t.capacity_ → (t.table_ i).occupied = false) ∧ ∀ b, t.overflow_buckets_ b = []

/-- The states reached from `t0` by finitely many `Put`, `Get` and `Remove` calls that
return. -/
inductive Reachable [DecidableEq K] (t0 : RobinhoodHashTable K V) :
    RobinhoodHashTable K V → Prop
  | init : Reachable t0 t0
  | put {t t' : RobinhoodHashTable K V} (fuel : Nat) (key : K) (value : V) :
      Reachable t0 t → Put fuel t key value = some t' → Reachable t0 t'
  | get {t : RobinhoodHashTable K V} (key : K) (r : Option V) :
      Reachable t0 t → Get t key = r → Reachable t0 t
  | remove {t t' : RobinhoodHashTable K V} (fuel : Nat) (key : K) :
      Reachable t0 t → Remove fuel t key = some t' → Reachable t0 t'

/-! ## Concrete tables

Tables of `RobinhoodHashTable<int, int>` on non-negative keys, where `std::hash<int>`
is the identity. -/

/-- `RobinhoodHashTable<int, int>(capacity, Dm)` right after construction; the fields
of an unoccupied slot that the default constructor leaves unset, and that no operation
reads, are taken as 0. -/
def emptyTable (capacity Dm : Nat) : RobinhoodHashTable Nat Nat :=
  ⟨capacity, Dm, fun _ => ⟨0, 0, false, 0, 0⟩, fun _ => [], fun k => k⟩

/-- The table of capacity 4 and threshold 1 after `Put(0, 1)`, `Put(4, 2)`, `Put(8, 3)`:
keys 0 and 4 sit in slots 0 and 1, key 8 sits in the overflow chain of bucket 0. -/
def demoTable : RobinhoodHashTable Nat Nat :=
  { emptyTable 4 1 with
    table_ := Function.update (Function.update (fun _ => ⟨0, 0, false, 0, 0⟩)
      0 ⟨0, 0, true, 0, 1⟩) 1 ⟨0, 1, true, 4, 2⟩
    overflow_buckets_ := Function.update (fun _ => []) 0 [⟨0, 2, true, 8, 3⟩] }

/-- The table of capacity 4 and threshold 1 after `Put(0, 1)`, `Put(4, 2)`, `Put(8, 3)`,
`Put(12, 4)`: keys 0 and 4 sit in slots 0 and 1, keys 8 and 12 sit, in this order, in
the overflow chain of bucket 0. -/
def longChainTable : RobinhoodHashTable Nat Nat :=
  { emptyTable 4 1 with
    table_ := Function.update (Function.update (fun _ => ⟨0, 0, false, 0, 0⟩)
      0 ⟨0, 0, true, 0, 1⟩) 1 ⟨0, 1, true, 4, 2⟩
    overflow_buckets_ := Function.update (Function.update (fun _ => [])
      0 [⟨0, 2, true, 8, 3⟩]) 0 [⟨0, 2, true, 8, 3⟩, ⟨0, 2, true, 12, 4⟩] }

/-- The table of capacity 4 and threshold 2 after `Put(0, 1)`, `Put(4, 2)`, `Put(1, 3)`:
keys 0, 4 and 1 sit in slots 0, 1 and 2 and no chain is in use. -/
def shiftTable : RobinhoodHashTable Nat Nat :=
  { emptyTable 4 2 with
    table_ := Function.update (Function.update (Function.update (fun _ => ⟨0, 0, false, 0, 0⟩)
      0 ⟨0, 0, true, 0, 1⟩) 1 ⟨0, 1, true, 4, 2⟩) 2 ⟨1, 1, true, 1, 3⟩ }

/-- The table of capacity 4 and threshold 1 after `Put(3, 1)`, `Put(7, 2)`, `Put(11, 3)`:
the probe window of bucket 3 wraps, key 3 sits in slot 3, key 7 in slot 0 and key 11
in the overflow chain of bucket 3. -/
def wrapTable : RobinhoodHashTable Nat Nat :=
  { emptyTable 4 1 with
    table_ := Function.update (Function.update (fun _ => ⟨0, 0, false, 0, 0⟩)
      3 ⟨3, 0, true, 3, 1⟩) 0 ⟨3, 1, true, 7, 2⟩
    overflow_buckets_ := Function.update (fun _ => []) 3 [⟨3, 2, true, 11, 3⟩] }

/-- The table of capacity 4 and threshold 1 after `Put(0, 1)`, `Put(1, 2)`, `Put(5, 3)`:
key 0 sits in slot 0 and keys 1 and 5, both of bucket 1, sit in slots 1 and 2. -/
def preSwapTable : RobinhoodHashTable Nat Nat :=
  { emptyTable 4 1 with
    table_ := Function.update (Function.update (Function.update (fun _ => ⟨0, 0, false, 0, 0⟩)
      0 ⟨0, 0, true, 0, 1⟩) 1 ⟨1, 0, true, 1, 2⟩) 2 ⟨1, 1, true, 5, 3⟩ }

/-- The table of capacity 4 and threshold 1 after `Put(0, 1)`, `Put(1, 2)`, `Put(5, 3)`,
`Put(4, 4)`: the last call swaps key 4 into slot 1 and the evicted key 1 overflows. -/
def swapTable : RobinhoodHashTable Nat Nat :=
  { emptyTable 4 1 with
    table_ := Function.update (Function.update (Function.update (Function.update
      (fun _ => ⟨0, 0, false, 0, 0⟩)
      0 ⟨0, 0, true, 0, 1⟩) 1 ⟨1, 0, true, 1, 2⟩) 2 ⟨1, 1, true, 5, 3⟩) 1 ⟨0, 1, true, 4, 4⟩
    overflow_buckets_ := Function.update (fun _ => []) 1 [⟨1, 2, true, 1, 2⟩] }

/-- The table of capacity 4 and threshold 1 after `Put(0, 1)`. -/
def oneKeyTable : RobinhoodHashTable Nat Nat :=
  { emptyTable 4 1 with
    table_ := Function.update (fun _ => ⟨0, 0, false, 0, 0⟩) 0 ⟨0, 0, true, 0, 1⟩ }

/-- The table of capacity 4 and threshold 1 after `Put(0, 1)` and then `Put(0, 2)`. -/
def twoCopiesTable : RobinhoodHashTable Nat Nat :=
  { emptyTable 4 1 with
    table_ := Function.update (Function.update (fun _ => ⟨0, 0, false, 0, 0⟩)
      0 ⟨0, 0, true, 0, 1⟩) 1 ⟨0, 1, true, 0, 2⟩ }

/-- A full primary table of capacity 2 and threshold 1: keys 0 and 1 sit at their
homes, the chains are empty. -/
def fullTable : RobinhoodHashTable Nat Nat :=
  { emptyTable 2 1 with
    table_ := Function.update (Function.update (fun _ => ⟨0, 0, false, 0, 0⟩)
      0 ⟨0, 0, true, 0, 1⟩) 1 ⟨1, 0, true, 1, 2⟩ }

/-- What a call `Remove(key)` hands back to its caller: the member function is declared
`void`, so the returned value is the unit, next to the state the call leaves. -/
def RemoveCall [DecidableEq K] (fuel : Nat) (t : RobinhoodHashTable K V) (key : K) :
    Option (Unit × RobinhoodHashTable K V) :=
  (Remove fuel t key).map fun t' => ((), t')

/-- One iteration of the `while (true)` loop of `Put`: either the operation completes
with a final state (left), or the loop goes on with a table, a routing variable and a
candidate (right). -/
def putStep (t : RobinhoodHashTable K V) (h : Nat) (current : Entry K V) :
    RobinhoodHashTable K V ⊕ (RobinhoodHashTable K V × Nat × Entry K V) :=
  if current.distance.val > t.Dm_ then
    let bucket := t.overflow_buckets_ h ++ [current]
    Sum.inl { t with overflow_buckets_ := Function.update t.overflow_buckets_ h bucket }
  else
    let index := (h + current.distance.val) % t.capacity_
    if (t.table_ index).occupied = false then
      Sum.inl { t with table_ := Function.update t.table_ index current }
    else
      let existing := t.table_ index
      if existing.distance.val < current.distance.val then
        let swapped := transactional_swap existing current
        Sum.inr ({ t with table_ := Function.update t.table_ index swapped.1 },
          swapped.2.h_initial,
          { swapped.2 with distance := toUInt8 (swapped.2.distance.val + 1) })
      else
        Sum.inr (t, h, { current with distance := toUInt8 (current.distance.val + 1) })

/-- Capacity 4, threshold 2: keys 0 and 4 (home 0) in slots 0 and 1, key 2 at its home
in slot 2; the state after `Put(0, 1)`, `Put(4, 2)`, `Put(2, 3)`. -/
def evictTable : RobinhoodHashTable Nat Nat :=
  { emptyTable 4 2 with
    table_ := Function.update (Function.update (Function.update (fun _ => ⟨0, 0, false, 0, 0⟩)
      0 ⟨0, 0, true, 0, 1⟩) 1 ⟨0, 1, true, 4, 2⟩) 2 ⟨2, 0, true, 2, 3⟩ }

/-- Capacity 1, threshold 255: the one slot holds key 0 with the largest distance the
8-bit field can store. -/
def saturatedTable : RobinhoodHashTable Nat Nat :=
  { emptyTable 1 255 with
    table_ := Function.update (fun _ => ⟨0, 0, false, 0, 0⟩) 0 ⟨0, 255, true, 0, 1⟩ }

/-- The (key, value, home) triple of an entry. -/
def Entry.triple (e : Entry K V) : K × V × Nat :=
  (e.key, e.value, e.h_initial)

/-- The triples of the occupied slots among the first `n` slots. -/
def slotTriples (f : Nat → Entry K V) : Nat → Multiset (K × V × Nat)
  | 0 => 0
  | n + 1 => slotTriples f n + (if (f n).occupied = true then {(f n).triple} else 0)

/-- The triples of the entries of the chains keyed by the indices in `S`. -/
def chainTriples (ov : Nat → List (Entry K V)) (S : Finset Nat) : Multiset (K × V × Nat) :=
  S.sum fun b => (((ov b).map Entry.triple : List (K × V × Nat)) : Multiset (K × V × Nat))

/-- The multiset of triples over the occupied primary slots and the chains keyed by the
indices in `S`; it is the multiset over all stored entries when `S` contains the key of
every non-empty chain. -/
def storedTriples (t : RobinhoodHashTable K V) (S : Finset Nat) : Multiset (K × V × Nat) :=
  slotTriples t.table_ t.capacity_ + chainTriples t.overflow_buckets_ S

/-- Reference definition, from the specification's description of backward-shift
deletion: the scan of the window of home `h` stops at position `p` when the successor
slot `(p + 1) mod capacity` is the window end `(h + Dm + 1) mod capacity`, is unoccupied,
or holds an entry with distance 0. -/
def refShiftStop (t : RobinhoodHashTable K V) (h p : Nat) : Prop :=
  (p + 1) % t.capacity_ = (h + t.Dm_ + 1) % t.capacity_ ∨
    (t.table_ ((p + 1) % t.capacity_)).occupied = false ∨
    (t.table_ ((p + 1) % t.capacity_)).distance.val = 0

/-! ## Arithmetic of the 8-bit distance and of slot indices -/

theorem toUInt8_succ (d : Nat) (hd : d ≤ 254) : (toUInt8 ((d : Int) + 1)).val = d + 1 := by
  simp only [toUInt8]
  omega

theorem toUInt8_pred (d : Nat) (hd : d < 256) (hpos : 0 < d) :
    (toUInt8 ((d : Int) - 1)).val = d - 1 := by
  simp only [toUInt8]
  omega

/-- Stepping one slot back inside a probe window. -/
theorem mod_pred_of_succ {n c a d : Nat} (hc : c < n) (hd : 0 < d)
    (h : (c + 1) % n = (a + d) % n) : c = (a + d - 1) % n := by
  have h1 : (a + d - 1) + 1 = a + d := by omega
  have h2 : Nat.ModEq n (c + 1) ((a + d - 1) + 1) := by
    unfold Nat.ModEq
    rw [h1]
    exact h
  have h3 : Nat.ModEq n c (a + d - 1) := Nat.ModEq.add_right_cancel' 1 h2
  unfold Nat.ModEq at h3
  rw [Nat.mod_eq_of_lt hc] at h3
  exact h3

/-- The successor slot differs from the slot itself unless it is the window end. -/
theorem succ_mod_ne {n c e : Nat} (hc : c < n) (hne : (c + 1) % n ≠ e % n) :
    (c + 1) % n ≠ c := by
  intro h
  by_cases h1 : c + 1 < n
  · rw [Nat.mod_eq_of_lt h1] at h
    omega
  · have h2 : c + 1 = n := by omega
    have h3 : n = 1 := by
      rw [h2, Nat.mod_self] at h
      omega
    subst h3
    apply hne
    simp [Nat.mod_one]

/-! ## What the invariants give -/

theorem slotLay_of_inv1 {t : RobinhoodHashTable K V} (h : Inv1 t) : SlotLay t := by
  intro i hi hocc
  obtain ⟨h1, h2, h3⟩ := h i hi hocc
  exact ⟨_, h2, by rw [← h1]; exact h3⟩

theorem slotHome_of_inv1 {t : RobinhoodHashTable K V} (h : Inv1 t) : SlotHome t :=
  fun i hi hocc => (h i hi hocc).1

theorem dispBound_of_inv1 {t : RobinhoodHashTable K V} (h : Inv1 t) : DispBound t :=
  fun i hi hocc => (h i hi hocc).2

theorem chainHome_of_inv2 {t : RobinhoodHashTable K V} (h : Inv2 t) : ChainHome t := by
  intro b e he
  obtain ⟨h2, h3⟩ := h b e he
  exact ⟨h2, by rw [← h2]; exact h3⟩

theorem chainLay_of_chainHome {t : RobinhoodHashTable K V} (h : ChainHome t) : ChainLay t :=
  fun b e he => (h b e he).2

theorem func_of_inv3 {t : RobinhoodHashTable K V} (h : Inv3 t) (k : K) : Func t k := by
  obtain ⟨ha, hb, hc, hd⟩ := h
  rintro v w (⟨i, hi, hio, hik, hiv⟩ | ⟨b, e, he, hek, hev⟩)
    (⟨j, hj, hjo, hjk, hjv⟩ | ⟨c, f, hf, hfk, hfv⟩)
  · by_cases hij : i = j
    · subst hij; rw [← hiv, ← hjv]
    · exact absurd (hik.trans hjk.symm) (ha i hi j hj hio hjo hij)
  · exact absurd (hik.trans hfk.symm) (hb i c f hi hio hf)
  · exact absurd (hjk.trans hek.symm) (hb j b e hj hjo he)
  · by_cases hbc : b = c
    · subst hbc
      by_cases hef : e = f
      · subst hef; rw [← hev, ← hfv]
      · have := (hd b).forall (fun _ _ hxy => Ne.symm hxy) he hf hef
        exact absurd (hek.trans hfk.symm) this
    · exact absurd (hek.trans hfk.symm) (hc b c e f hbc he hf)

/-! ## The stored contents under updates of a slot or a chain -/

theorem Stored_iff_except (t : RobinhoodHashTable K V) (idx : Nat) (hidx : idx < t.capacity_)
    (k : K) (v : V) :
    Stored t k v ↔ (InTableExcept t idx k v ∨ (t.table_ idx).Holds k v) ∨ InChains t k v := by
  unfold Stored InTableExcept InChains Entry.Holds
  constructor
  · rintro (⟨i, hi, h⟩ | h)
    · by_cases hii : i = idx
      · subst hii; exact Or.inl (Or.inr h)
      · exact Or.inl (Or.inl ⟨i, hi, hii, h⟩)
    · exact Or.inr h
  · rintro ((⟨i, hi, _, h⟩ | h) | h)
    · exact Or.inl ⟨i, hi, h⟩
    · exact Or.inl ⟨idx, hidx, h⟩
    · exact Or.inr h

theorem InTableExcept_update (t : RobinhoodHashTable K V) (idx : Nat) (e : Entry K V)
    (k : K) (v : V) :
    InTableExcept { t with table_ := Function.update t.table_ idx e } idx k v ↔
      InTableExcept t idx k v := by
  unfold InTableExcept
  constructor
  · rintro ⟨i, hi, hne, h⟩
    refine ⟨i, hi, hne, ?_⟩
    simpa [Function.update_noteq hne] using h
  · rintro ⟨i, hi, hne, h⟩
    refine ⟨i, hi, hne, ?_⟩
    simpa [Function.update_noteq hne] using h

theorem Stored_update (t : RobinhoodHashTable K V) (idx : Nat) (hidx : idx < t.capacity_)
    (e : Entry K V) (k : K) (v : V) :
    Stored { t with table_ := Function.update t.table_ idx e } k v ↔
      (InTableExcept t idx k v ∨ e.Holds k v) ∨ InChains t k v := by
  rw [Stored_iff_except { t with table_ := Function.update t.table_ idx e } idx hidx,
    InTableExcept_update]
  simp only [Function.update_same]
  rfl

theorem Stored_push (t : RobinhoodHashTable K V) (h : Nat) (e : Entry K V) (k : K) (v : V) :
    Stored { t with overflow_buckets_ :=
      Function.update t.overflow_buckets_ h (t.overflow_buckets_ h ++ [e]) } k v ↔
      Stored t k v ∨ (e.key = k ∧ e.value = v) := by
  unfold Stored
  constructor
  · rintro (h1 | ⟨b, x, hx, hk, hv⟩)
    · exact Or.inl (Or.inl h1)
    · by_cases hb : b = h
      · subst hb
        simp only [Function.update_same, List.mem_append, List.mem_singleton] at hx
        rcases hx with hx | hx
        · exact Or.inl (Or.inr ⟨b, x, hx, hk, hv⟩)
        · subst hx; exact Or.inr ⟨hk, hv⟩
      · simp only [Function.update_noteq hb] at hx
        exact Or.inl (Or.inr ⟨b, x, hx, hk, hv⟩)
  · rintro ((h1 | ⟨b, x, hx, hk, hv⟩) | ⟨hk, hv⟩)
    · exact Or.inl h1
    · refine Or.inr ⟨b, x, ?_, hk, hv⟩
      by_cases hb : b = h
      · subst hb
        simp only [Function.update_same, List.mem_append, List.mem_singleton]
        exact Or.inl hx
      · simpa only [Function.update_noteq hb] using hx
    · refine Or.inr ⟨h, e, ?_, hk, hv⟩
      simp

theorem Stored_vacate (t : RobinhoodHashTable K V) {c : Nat} (hc : c < t.capacity_)
    (k : K) (v : V) : Stored (vacate t c) k v ↔ InTableExcept t c k v ∨ InChains t k v := by
  unfold vacate
  rw [Stored_update t c hc]
  simp [Entry.Holds]

/-- Once the slot holding `k` is set aside, what is left is everything stored
under another key. -/
theorem except_iff {t : RobinhoodHashTable K V} (h3 : Inv3 t) {idx : Nat}
    (hidx : idx < t.capacity_) (hocc : (t.table_ idx).occupied = true) (κ : K) (v : V) :
    (InTableExcept t idx κ v ∨ InChains t κ v) ↔
      κ ≠ (t.table_ idx).key ∧ Stored t κ v := by
  rw [Stored_iff_except t idx hidx]
  obtain ⟨ha, hb, _, _⟩ := h3
  constructor
  · rintro (⟨i, hi, hne, hio, hik, hiv⟩ | ⟨b, e, he, hek, hev⟩)
    · refine ⟨?_, Or.inl (Or.inl ⟨i, hi, hne, hio, hik, hiv⟩)⟩
      rw [← hik]
      exact ha i hi idx hidx hio hocc hne
    · refine ⟨?_, Or.inr ⟨b, e, he, hek, hev⟩⟩
      rw [← hek]
      exact (hb idx b e hidx hocc he).symm
  · rintro ⟨hne, (h | ⟨_, hk, _⟩) | h⟩
    · exact Or.inl h
    · exact absurd hk.symm hne
    · exact Or.inr h

theorem InChains_pop {t : RobinhoodHashTable K V} {h : Nat} {front : Entry K V}
    {rest : List (Entry K V)} (hov : t.overflow_buckets_ h = front :: rest) (κ : K) (v : V) :
    InChains t κ v ↔ (front.key = κ ∧ front.value = v) ∨
      InChains { t with overflow_buckets_ := Function.update t.overflow_buckets_ h rest } κ v := by
  unfold InChains
  constructor
  · rintro ⟨b, e, he, hek, hev⟩
    by_cases hb : b = h
    · subst hb
      rw [hov] at he
      rcases List.mem_cons.mp he with h | h
      · subst h; exact Or.inl ⟨hek, hev⟩
      · exact Or.inr ⟨b, e, by simpa using h, hek, hev⟩
    · exact Or.inr ⟨b, e, by simpa only [Function.update_noteq hb] using he, hek, hev⟩
  · rintro (⟨hk, hv⟩ | ⟨b, e, he, hek, hev⟩)
    · exact ⟨h, front, by rw [hov]; exact List.mem_cons_self _ _, hk, hv⟩
    · by_cases hb : b = h
      · subst hb
        simp only [Function.update_same] at he
        exact ⟨b, e, by rw [hov]; exact List.mem_cons_of_mem _ he, hek, hev⟩
      · simp only [Function.update_noteq hb] at he
        exact ⟨b, e, he, hek, hev⟩

/-! ## The displacement loop of `Put` -/

/-- Hoare-style rule for the displacement loop. -/
theorem putLoop_rule (P : RobinhoodHashTable K V → Nat → Entry K V → Prop)
    (Q : RobinhoodHashTable K V → Prop)
    (hover : ∀ t h cur, P t h cur → cur.distance.val > t.Dm_ →
      Q { t with overflow_buckets_ :=
            Function.update t.overflow_buckets_ h (t.overflow_buckets_ h ++ [cur]) })
    (hplace : ∀ t h cur, P t h cur → ¬ cur.distance.val > t.Dm_ →
      (t.table_ ((h + cur.distance.val) % t.capacity_)).occupied = false →
      Q { t with table_ :=
            Function.update t.table_ ((h + cur.distance.val) % t.capacity_) cur })
    (hswap : ∀ t h cur, P t h cur → ¬ cur.distance.val > t.Dm_ →
      (t.table_ ((h + cur.distance.val) % t.capacity_)).occupied = true →
      (t.table_ ((h + cur.distance.val) % t.capacity_)).distance.val < cur.distance.val →
      P { t with table_ :=
            Function.update t.table_ ((h + cur.distance.val) % t.capacity_) cur }
        (t.table_ ((h + cur.distance.val) % t.capacity_)).h_initial
        { t.table_ ((h + cur.distance.val) % t.capacity_) with
          distance := toUInt8
            ((t.table_ ((h + cur.distance.val) % t.capacity_)).distance.val + 1) })
    (hskip : ∀ t h cur, P t h cur → ¬ cur.distance.val > t.Dm_ →
      (t.table_ ((h + cur.distance.val) % t.capacity_)).occupied = true →
      ¬ (t.table_ ((h + cur.distance.val) % t.capacity_)).distance.val < cur.distance.val →
      P t h { cur with distance := toUInt8 (cur.distance.val + 1) }) :
    ∀ fuel t h cur t', P t h cur → putLoop fuel t h cur = some t' → Q t' := by
  intro fuel
  induction fuel with
  | zero => intro t h cur t' _ hres; simp [putLoop] at hres
  | succ n ih =>
    intro t h cur t' hP hres
    simp only [putLoop, transactional_swap] at hres
    split_ifs at hres with h1 h2 h3
    · simp only [Option.some.injEq] at hres
      subst hres
      exact hover t h cur hP h1
    · simp only [Option.some.injEq] at hres
      subst hres
      exact hplace t h cur hP h1 h2
    · exact ih _ _ _ _ (hswap t h cur hP h1 (by simpa using h2) h3) hres
    · exact ih _ _ _ _ (hskip t h cur hP h1 (by simpa using h2) h3) hres

theorem putLoop_frame {fuel : Nat} {t t' : RobinhoodHashTable K V} {h : Nat} {cur : Entry K V}
    (hres : putLoop fuel t h cur = some t') :
    t'.capacity_ = t.capacity_ ∧ t'.Dm_ = t.Dm_ ∧ t'.hash_fn_ = t.hash_fn_ := by
  refine putLoop_rule
    (fun s _ _ => s.capacity_ = t.capacity_ ∧ s.Dm_ = t.Dm_ ∧ s.hash_fn_ = t.hash_fn_)
    (fun s => s.capacity_ = t.capacity_ ∧ s.Dm_ = t.Dm_ ∧ s.hash_fn_ = t.hash_fn_)
    ?_ ?_ ?_ ?_ fuel t h cur t' ⟨rfl, rfl, rfl⟩ hres
  all_goals intros; assumption

/-- The displacement loop stores the candidate and keeps everything else. -/
theorem putLoop_stored {fuel : Nat} {t t' : RobinhoodHashTable K V} {h : Nat} {cur : Entry K V}
    (hcap : 0 < t.capacity_) (hocc : cur.occupied = true)
    (hres : putLoop fuel t h cur = some t') (k : K) (v : V) :
    Stored t' k v ↔ Stored t k v ∨ (cur.key = k ∧ cur.value = v) := by
  refine putLoop_rule
    (fun s _ c => 0 < s.capacity_ ∧ c.occupied = true ∧
      ((Stored s k v ∨ (c.key = k ∧ c.value = v)) ↔
        (Stored t k v ∨ (cur.key = k ∧ cur.value = v))))
    (fun s => Stored s k v ↔ Stored t k v ∨ (cur.key = k ∧ cur.value = v))
    ?_ ?_ ?_ ?_ fuel t h cur t' ⟨hcap, hocc, Iff.rfl⟩ hres
  · rintro s g c ⟨_, _, hP⟩ _
    rw [Stored_push]
    exact hP
  · rintro s g c ⟨hc, ho, hP⟩ _ hvac
    rw [Stored_update s _ (Nat.mod_lt _ hc), ← hP,
      Stored_iff_except s _ (Nat.mod_lt (g + c.distance.val) hc)]
    simp only [Entry.Holds, hvac, ho, true_and, false_and, or_false]
    tauto
  · rintro s g c ⟨hc, ho, hP⟩ _ hex _
    refine ⟨hc, hex, ?_⟩
    rw [Stored_update s _ (Nat.mod_lt _ hc), ← hP,
      Stored_iff_except s _ (Nat.mod_lt (g + c.distance.val) hc)]
    simp only [Entry.Holds, hex, ho, true_and]
    tauto
  · rintro s g c ⟨hc, ho, hP⟩ _ _ _
    exact ⟨hc, ho, hP⟩

theorem putLoop_homes {fuel : Nat} {t t' : RobinhoodHashTable K V} {h : Nat} {cur : Entry K V}
    (hcap : 0 < t.capacity_) (hs : SlotHome t) (hc : ChainHome t) (hh : h = cur.h_initial)
    (hcur : cur.h_initial = t.hash_fn_ cur.key % t.capacity_)
    (hres : putLoop fuel t h cur = some t') : SlotHome t' ∧ ChainHome t' := by
  refine putLoop_rule
    (fun s g c => 0 < s.capacity_ ∧ SlotHome s ∧ ChainHome s ∧ g = c.h_initial ∧
      c.h_initial = s.hash_fn_ c.key % s.capacity_)
    (fun s => SlotHome s ∧ ChainHome s)
    ?_ ?_ ?_ ?_ fuel t h cur t' ⟨hcap, hs, hc, hh, hcur⟩ hres
  · rintro s g c ⟨_, h1, h2, h3, h4⟩ _
    refine ⟨h1, ?_⟩
    intro b e he
    by_cases hb : b = g
    · subst hb
      simp only [Function.update_same, List.mem_append, List.mem_singleton] at he
      rcases he with he | he
      · exact h2 b e he
      · subst he; exact ⟨h3.symm, by rw [h3]; exact h4⟩
    · simp only [Function.update_noteq hb] at he
      exact h2 b e he
  · rintro s g c ⟨_, h1, h2, h3, h4⟩ _ _
    refine ⟨?_, h2⟩
    intro i hi hocc
    by_cases hii : i = (g + c.distance.val) % s.capacity_
    · subst hii
      simp only [Function.update_same] at hocc ⊢
      exact h4
    · simp only [Function.update_noteq hii] at hocc ⊢
      exact h1 i hi hocc
  · rintro s g c ⟨h0, h1, h2, h3, h4⟩ _ hex _
    refine ⟨h0, ?_, h2, rfl, h1 _ (Nat.mod_lt _ h0) hex⟩
    intro i hi hocc
    by_cases hii : i = (g + c.distance.val) % s.capacity_
    · subst hii
      simp only [Function.update_same] at hocc ⊢
      exact h4
    · simp only [Function.update_noteq hii] at hocc ⊢
      exact h1 i hi hocc
  · rintro s g c ⟨h0, h1, h2, h3, h4⟩ _ _ _
    exact ⟨h0, h1, h2, h3, h4⟩

theorem putLoop_slotLay {fuel : Nat} {t t' : RobinhoodHashTable K V} {h : Nat}
    {cur : Entry K V} (hcap : 0 < t.capacity_) (hs : SlotHome t) (hl : SlotLay t)
    (hh : h = cur.h_initial) (hcur : cur.h_initial = t.hash_fn_ cur.key % t.capacity_)
    (hres : putLoop fuel t h cur = some t') : SlotLay t' := by
  refine putLoop_rule
    (fun s g c => 0 < s.capacity_ ∧ SlotHome s ∧ SlotLay s ∧ g = c.h_initial ∧
      c.h_initial = s.hash_fn_ c.key % s.capacity_)
    (fun s => SlotLay s)
    ?_ ?_ ?_ ?_ fuel t h cur t' ⟨hcap, hs, hl, hh, hcur⟩ hres
  · rintro s g c ⟨_, h1, h2, h3, h4⟩ _
    exact h2
  · rintro s g c ⟨_, h1, h2, h3, h4⟩ hd _
    intro i hi hocc
    by_cases hii : i = (g + c.distance.val) % s.capacity_
    · subst hii
      simp only [Function.update_same] at hocc ⊢
      exact ⟨c.distance.val, by omega, by rw [← h4, ← h3]⟩
    · simp only [Function.update_noteq hii] at hocc ⊢
      exact h2 i hi hocc
  · rintro s g c ⟨h0, h1, h2, h3, h4⟩ hd hex _
    refine ⟨h0, ?_, ?_, rfl, h1 _ (Nat.mod_lt _ h0) hex⟩
    · intro i hi hocc
      by_cases hii : i = (g + c.distance.val) % s.capacity_
      · subst hii
        simp only [Function.update_same] at hocc ⊢
        exact h4
      · simp only [Function.update_noteq hii] at hocc ⊢
        exact h1 i hi hocc
    · intro i hi hocc
      by_cases hii : i = (g + c.distance.val) % s.capacity_
      · subst hii
        simp only [Function.update_same] at hocc ⊢
        exact ⟨c.distance.val, by omega, by rw [← h4, ← h3]⟩
      · simp only [Function.update_noteq hii] at hocc ⊢
        exact h2 i hi hocc
  · rintro s g c ⟨h0, h1, h2, h3, h4⟩ _ _ _
    exact ⟨h0, h1, h2, h3, h4⟩

theorem putLoop_dispBound {fuel : Nat} {t t' : RobinhoodHashTable K V} {h : Nat}
    {cur : Entry K V} (hd : DispBound t) (hh : h = cur.h_initial)
    (hres : putLoop fuel t h cur = some t') : DispBound t' := by
  refine putLoop_rule
    (fun s g c => DispBound s ∧ g = c.h_initial)
    (fun s => DispBound s)
    ?_ ?_ ?_ ?_ fuel t h cur t' ⟨hd, hh⟩ hres
  · rintro s g c ⟨h1, _⟩ _
    exact h1
  · rintro s g c ⟨h1, h3⟩ hd _
    intro i hi hocc
    by_cases hii : i = (g + c.distance.val) % s.capacity_
    · subst hii
      simp only [Function.update_same] at hocc ⊢
      exact ⟨by omega, by rw [h3]⟩
    · simp only [Function.update_noteq hii] at hocc ⊢
      exact h1 i hi hocc
  · rintro s g c ⟨h1, h3⟩ hd _ _
    refine ⟨?_, rfl⟩
    intro i hi hocc
    by_cases hii : i = (g + c.distance.val) % s.capacity_
    · subst hii
      simp only [Function.update_same] at hocc ⊢
      exact ⟨by omega, by rw [h3]⟩
    · simp only [Function.update_noteq hii] at hocc ⊢
      exact h1 i hi hocc
  · rintro s g c ⟨h1, h3⟩ _ _ _
    exact ⟨h1, h3⟩

theorem putLoop_chainLive {fuel : Nat} {t t' : RobinhoodHashTable K V} {h : Nat}
    {cur : Entry K V} (hl : ChainLive t) (hocc : cur.occupied = true)
    (hres : putLoop fuel t h cur = some t') : ChainLive t' := by
  refine putLoop_rule
    (fun s _ c => ChainLive s ∧ c.occupied = true)
    (fun s => ChainLive s)
    ?_ ?_ ?_ ?_ fuel t h cur t' ⟨hl, hocc⟩ hres
  · rintro s g c ⟨h1, h2⟩ _
    intro b e he
    by_cases hb : b = g
    · subst hb
      simp only [Function.update_same, List.mem_append, List.mem_singleton] at he
      rcases he with he | he
      · exact h1 b e he
      · subst he; exact h2
    · simp only [Function.update_noteq hb] at he
      exact h1 b e he
  · rintro s g c ⟨h1, _⟩ _ _
    exact h1
  · rintro s g c ⟨h1, _⟩ _ hex _
    exact ⟨h1, hex⟩
  · rintro s g c ⟨h1, h2⟩ _ _ _
    exact ⟨h1, h2⟩

theorem slack_update_ge (f : Nat → Entry K V) (idx : Nat) (e : Entry K V) :
    ∀ n, n ≤ idx → slack (Function.update f idx e) n = slack f n := by
  intro n
  induction n with
  | zero => intro _; rfl
  | succ m ih =>
    intro hm
    have hne : m ≠ idx := by omega
    simp only [slack, Function.update_noteq hne, ih (by omega)]

theorem slack_update (f : Nat → Entry K V) (idx : Nat) (e : Entry K V) :
    ∀ n, idx < n → slack (Function.update f idx e) n + (255 - (f idx).distance.val) =
      slack f n + (255 - e.distance.val) := by
  intro n
  induction n with
  | zero => intro h; omega
  | succ m ih =>
    intro hm
    by_cases hmi : m = idx
    · subst hmi
      simp only [slack, Function.update_same, slack_update_ge f m e m (le_refl m)]
      omega
    · have := ih (by omega)
      simp only [slack, Function.update_noteq hmi]
      omega

/-- The displacement loop returns when the threshold fits the 8-bit distance field. -/
theorem putLoop_terminates :
    ∀ (n : Nat) (t : RobinhoodHashTable K V) (h : Nat) (cur : Entry K V),
      0 < t.capacity_ → t.Dm_ ≤ 254 →
      slack t.table_ t.capacity_ * 256 + (255 - cur.distance.val) < n →
      ∃ t', putLoop n t h cur = some t' := by
  intro n
  induction n with
  | zero => intro t h cur _ _ hn; omega
  | succ m ih =>
    intro t h cur hcap hDm hn
    simp only [putLoop, transactional_swap]
    split_ifs with h1 h2 h3
    · exact ⟨_, rfl⟩
    · exact ⟨_, rfl⟩
    · refine ih _ _ _ hcap hDm ?_
      have hsl := slack_update t.table_ ((h + cur.distance.val) % t.capacity_) cur
        t.capacity_ (Nat.mod_lt _ hcap)
      have hex := (t.table_ ((h + cur.distance.val) % t.capacity_)).distance.isLt
      have hc := cur.distance.isLt
      simp only
      rw [toUInt8_succ _ (by omega)]
      omega
    · refine ih _ _ _ hcap hDm ?_
      simp only
      rw [toUInt8_succ _ (by omega)]
      omega

theorem Put_terminates (t : RobinhoodHashTable K V) (k : K) (v : V)
    (hcap : 0 < t.capacity_) (hDm : t.Dm_ ≤ 254) : ∃ fuel t', Put fuel t k v = some t' :=
  ⟨_, putLoop_terminates _ t _ _ hcap hDm (Nat.lt_succ_self _)⟩

theorem Put_lay {fuel : Nat} {t t' : RobinhoodHashTable K V} {k : K} {v : V}
    (hcap : 0 < t.capacity_) (h1 : Inv1 t) (h2 : Inv2 t)
    (hres : Put fuel t k v = some t') : 0 < t'.capacity_ ∧ Lay t' := by
  unfold Put at hres
  simp only at hres
  refine ⟨by rw [(putLoop_frame hres).1]; exact hcap, ?_, ?_⟩
  · refine putLoop_slotLay hcap (slotHome_of_inv1 h1) (slotLay_of_inv1 h1) ?_ ?_ hres <;> rfl
  · have : SlotHome t' ∧ ChainHome t' := by
      refine putLoop_homes hcap (slotHome_of_inv1 h1) (chainHome_of_inv2 h2) ?_ ?_ hres <;> rfl
    exact chainLay_of_chainHome this.2

theorem Put_stored {fuel : Nat} {t t' : RobinhoodHashTable K V} {k : K} {v : V}
    (hcap : 0 < t.capacity_) (hres : Put fuel t k v = some t') (κ : K) (w : V) :
    Stored t' κ w ↔ Stored t κ w ∨ (k = κ ∧ v = w) := by
  unfold Put at hres
  simp only at hres
  exact putLoop_stored hcap rfl hres κ w

theorem Put_homes {fuel : Nat} {t t' : RobinhoodHashTable K V} {k : K} {v : V}
    (hcap : 0 < t.capacity_) (hs : SlotHome t) (hc : ChainHome t) (hl : ChainLive t)
    (hres : Put fuel t k v = some t') :
    t'.capacity_ = t.capacity_ ∧ SlotHome t' ∧ ChainHome t' ∧ ChainLive t' := by
  unfold Put at hres
  simp only at hres
  obtain ⟨h1, h2⟩ : SlotHome t' ∧ ChainHome t' := by
    refine putLoop_homes hcap hs hc ?_ ?_ hres <;> rfl
  exact ⟨(putLoop_frame hres).1, h1, h2, putLoop_chainLive hl rfl hres⟩

/-! ## The backward-shift loop of `Remove` -/

/-- Hoare-style rule for the backward-shift loop. -/
theorem shiftLoop_rule (P : RobinhoodHashTable K V → Nat → Prop) (h : Nat)
    (hstep : ∀ t c, P t c →
      (c + 1) % t.capacity_ ≠ (h + t.Dm_ + 1) % t.capacity_ →
      (t.table_ ((c + 1) % t.capacity_)).occupied = true →
      (t.table_ ((c + 1) % t.capacity_)).distance.val > 0 →
      P { t with table_ := Function.update t.table_ c (shiftedEntry t c) }
        ((c + 1) % t.capacity_)) :
    ∀ fuel t c t1 c1, P t c → shiftLoop fuel t h c = some (t1, c1) → P t1 c1 := by
  intro fuel
  induction fuel with
  | zero => intro t c t1 c1 _ hres; simp [shiftLoop] at hres
  | succ n ih =>
    intro t c t1 c1 hP hres
    simp only [shiftLoop] at hres
    split_ifs at hres with h1 h2
    · simp only [Option.some.injEq, Prod.mk.injEq] at hres
      obtain ⟨rfl, rfl⟩ := hres
      exact hP
    · simp only [not_or] at h1
      exact ih _ _ _ _ (hstep t c hP h1.1 (by simpa using h1.2) h2) hres
    · simp only [Option.some.injEq, Prod.mk.injEq] at hres
      obtain ⟨rfl, rfl⟩ := hres
      exact hP

theorem shiftLoop_terminates (h : Nat) :
    ∀ (fuel : Nat) (t : RobinhoodHashTable K V) (c : Nat), 0 < t.capacity_ →
      c < t.capacity_ →
      stepsTo t.capacity_ ((h + t.Dm_ + 1) % t.capacity_) c < fuel →
      ∃ r, shiftLoop fuel t h c = some r := by
  intro fuel
  induction fuel with
  | zero => intro t c _ _ hf; omega
  | succ n ih =>
    intro t c hcap hc hf
    simp only [shiftLoop]
    split_ifs with h1 h2
    · exact ⟨_, rfl⟩
    · simp only [not_or] at h1
      have he : (h + t.Dm_ + 1) % t.capacity_ < t.capacity_ := Nat.mod_lt _ hcap
      refine ih _ _ hcap (Nat.mod_lt _ hcap) ?_
      have hne := h1.1
      simp only
      by_cases hlt : c + 1 < t.capacity_
      · rw [Nat.mod_eq_of_lt hlt] at hne ⊢
        unfold stepsTo at hf ⊢
        split_ifs at hf ⊢ <;> omega
      · have hceq : c + 1 = t.capacity_ := by omega
        rw [hceq, Nat.mod_self] at hne ⊢
        unfold stepsTo at hf ⊢
        split_ifs at hf ⊢ <;> omega
    · exact ⟨_, rfl⟩

theorem Inv1_vacate {t : RobinhoodHashTable K V} (h1 : Inv1 t) (c : Nat) :
    Inv1 (vacate t c) := by
  intro i hi hocc
  by_cases hic : i = c
  · subst hic
    simp [vacate] at hocc
  · simp only [vacate, Function.update_noteq hic] at hocc ⊢
    exact h1 i hi hocc

theorem InTableExcept_shift (t : RobinhoodHashTable K V) {c : Nat} (hc : c < t.capacity_)
    (hcap : 0 < t.capacity_) (hne : (c + 1) % t.capacity_ ≠ c)
    (hocc : (t.table_ ((c + 1) % t.capacity_)).occupied = true) (k : K) (v : V) :
    InTableExcept { t with table_ := Function.update t.table_ c (shiftedEntry t c) }
        ((c + 1) % t.capacity_) k v ↔ InTableExcept t c k v := by
  unfold InTableExcept
  constructor
  · rintro ⟨i, hi, hin, hh⟩
    by_cases hic : i = c
    · subst hic
      simp only [Function.update_same] at hh
      exact ⟨(i + 1) % t.capacity_, Nat.mod_lt _ hcap, hne, hh⟩
    · simp only [Function.update_noteq hic] at hh
      exact ⟨i, hi, hic, hh⟩
  · rintro ⟨i, hi, hic, hh⟩
    by_cases hin : i = (c + 1) % t.capacity_
    · subst hin
      refine ⟨c, hc, fun h => hne h.symm, ?_⟩
      simp only [Function.update_same]
      exact hh
    · refine ⟨i, hi, hin, ?_⟩
      simp only [Function.update_noteq hic]
      exact hh

theorem shift_spec {fuel : Nat} {t t1 : RobinhoodHashTable K V} {h idx c1 : Nat}
    (hcap : 0 < t.capacity_) (hidx : idx < t.capacity_) (h1 : Inv1 t)
    (hres : shiftLoop fuel t h idx = some (t1, c1)) :
    t1.capacity_ = t.capacity_ ∧ t1.Dm_ = t.Dm_ ∧ t1.hash_fn_ = t.hash_fn_ ∧
      t1.overflow_buckets_ = t.overflow_buckets_ ∧ c1 < t1.capacity_ ∧ Inv1 (vacate t1 c1) ∧
      ∀ k v, InTableExcept t1 c1 k v ↔ InTableExcept t idx k v := by
  refine shiftLoop_rule
    (fun s c => s.capacity_ = t.capacity_ ∧ s.Dm_ = t.Dm_ ∧ s.hash_fn_ = t.hash_fn_ ∧
      s.overflow_buckets_ = t.overflow_buckets_ ∧ c < s.capacity_ ∧ Inv1 (vacate s c) ∧
      ∀ k v, InTableExcept s c k v ↔ InTableExcept t idx k v)
    h ?_ fuel t idx t1 c1 ⟨rfl, rfl, rfl, rfl, hidx, Inv1_vacate h1 idx, fun _ _ => Iff.rfl⟩ hres
  rintro s c ⟨e1, e2, e3, e4, hc, hinv, hst⟩ hne hocc hpos
  have hcs : 0 < s.capacity_ := by omega
  have hnc : (c + 1) % s.capacity_ ≠ c := succ_mod_ne hc hne
  refine ⟨e1, e2, e3, e4, Nat.mod_lt _ hcs, ?_, ?_⟩
  · have hnext := hinv ((c + 1) % s.capacity_) (Nat.mod_lt _ hcs)
      (by simpa only [vacate, Function.update_noteq hnc] using hocc)
    simp only [vacate, Function.update_noteq hnc] at hnext
    obtain ⟨n1, n2, n3⟩ := hnext
    intro i hi hio
    by_cases hin : i = (c + 1) % s.capacity_
    · subst hin
      simp [vacate] at hio
    · simp only [vacate, Function.update_noteq hin] at hio ⊢
      by_cases hic : i = c
      · subst hic
        simp only [Function.update_same, shiftedEntry] at hio ⊢
        have hlt := (s.table_ ((i + 1) % s.capacity_)).distance.isLt
        rw [toUInt8_pred _ hlt hpos]
        refine ⟨n1, by omega, ?_⟩
        have hpred := mod_pred_of_succ hc hpos n3
        have hsum : (s.table_ ((i + 1) % s.capacity_)).h_initial +
            ((s.table_ ((i + 1) % s.capacity_)).distance.val - 1) =
            (s.table_ ((i + 1) % s.capacity_)).h_initial +
              (s.table_ ((i + 1) % s.capacity_)).distance.val - 1 := by omega
        rw [hsum]
        exact hpred
      · simp only [Function.update_noteq hic] at hio ⊢
        have := hinv i hi (by simpa only [vacate, Function.update_noteq hic] using hio)
        simpa only [vacate, Function.update_noteq hic] using this
  · intro k v
    rw [← hst k v]
    exact InTableExcept_shift s hc hcs hnc hocc k v

theorem shiftLoop_homes {fuel : Nat} {t t1 : RobinhoodHashTable K V} {h idx c1 : Nat}
    (hcap : 0 < t.capacity_) (hs : SlotHome t)
    (hres : shiftLoop fuel t h idx = some (t1, c1)) :
    t1.capacity_ = t.capacity_ ∧ t1.Dm_ = t.Dm_ ∧ t1.hash_fn_ = t.hash_fn_ ∧
      t1.overflow_buckets_ = t.overflow_buckets_ ∧ SlotHome t1 := by
  refine shiftLoop_rule
    (fun s _ => s.capacity_ = t.capacity_ ∧ s.Dm_ = t.Dm_ ∧ s.hash_fn_ = t.hash_fn_ ∧
      s.overflow_buckets_ = t.overflow_buckets_ ∧ SlotHome s)
    h ?_ fuel t idx t1 c1 ⟨rfl, rfl, rfl, rfl, hs⟩ hres
  rintro s c ⟨e1, e2, e3, e4, hsl⟩ _ hocc _
  have hcs : 0 < s.capacity_ := by omega
  refine ⟨e1, e2, e3, e4, ?_⟩
  intro i hi hio
  by_cases hic : i = c
  · subst hic
    simp only [Function.update_same, shiftedEntry] at hio ⊢
    exact hsl _ (Nat.mod_lt _ hcs) hocc
  · simp only [Function.update_noteq hic] at hio ⊢
    exact hsl i hi hio

/-! ## The concrete tables -/

theorem emptyTable_constructed (capacity Dm : Nat) : Constructed (emptyTable capacity Dm) :=
  ⟨fun _ _ => rfl, fun _ => rfl⟩

theorem demoTable_inv1 : Inv1 demoTable := by
  unfold Inv1
  decide

theorem demoTable_inv2 : Inv2 demoTable := by
  intro b e he
  simp only [demoTable, emptyTable, Function.update_apply] at he
  split_ifs at he with hb
  · subst hb
    simp only [List.mem_singleton] at he
    subst he
    decide
  · simp at he

theorem demoTable_inv3 : Inv3 demoTable := by
  refine ⟨?_, ?_, ?_, ?_⟩
  · intro i hi j hj
    have hi' : i < 4 := hi
    have hj' : j < 4 := hj
    interval_cases i <;> interval_cases j <;> decide
  · intro i b e hi hocc he
    simp only [demoTable, emptyTable, Function.update_apply] at he
    split_ifs at he with hb
    · simp only [List.mem_singleton] at he
      subst he
      have hi' : i < 4 := hi
      interval_cases i <;> decide
    · simp at he
  · intro b c e f hbc he hf
    simp only [demoTable, emptyTable, Function.update_apply] at he hf
    split_ifs at he hf with hb hc
    · omega
    · simp at hf
    · simp at he
    · simp at he
  · intro b
    simp only [demoTable, emptyTable, Function.update_apply]
    split_ifs <;> simp

theorem demoTable_chainLive : ChainLive demoTable := by
  intro b e he
  simp only [demoTable, emptyTable, Function.update_apply] at he
  split_ifs at he with hb
  · simp only [List.mem_singleton] at he
    subst he
    rfl
  · simp at he

theorem demoTable_fresh12 : ∀ w, ¬ Stored demoTable 12 w := by
  rintro w (⟨i, hi, ho, hk, _⟩ | ⟨b, e, he, hk, _⟩)
  · have hi' : i < 4 := hi
    interval_cases i <;> revert hk ho <;> decide
  · simp only [demoTable, emptyTable, Function.update_apply] at he
    split_ifs at he with hb
    · simp only [List.mem_singleton] at he
      subst he
      revert hk
      decide
    · simp at he

theorem shiftTable_inv1 : Inv1 shiftTable := by
  unfold Inv1
  decide

theorem shiftTable_inv2 : Inv2 shiftTable := by
  intro b e he
  simp [shiftTable, emptyTable] at he

theorem shiftTable_inv3 : Inv3 shiftTable := by
  refine ⟨?_, ?_, ?_, ?_⟩
  · intro i hi j hj
    have hi' : i < 4 := hi
    have hj' : j < 4 := hj
    interval_cases i <;> interval_cases j <;> decide
  · intro i b e hi hocc he
    simp [shiftTable, emptyTable] at he
  · intro b c e f hbc he hf
    simp [shiftTable, emptyTable] at he
  · intro b
    simp [shiftTable, emptyTable]

theorem shiftTable_chainLive : ChainLive shiftTable := by
  intro b e he
  simp [shiftTable, emptyTable] at he

theorem wrapTable_inv1 : Inv1 wrapTable := by
  unfold Inv1
  decide

theorem wrapTable_inv2 : Inv2 wrapTable := by
  intro b e he
  simp only [wrapTable, emptyTable, Function.update_apply] at he
  split_ifs at he with hb
  · subst hb
    simp only [List.mem_singleton] at he
    subst he
    decide
  · simp at he

theorem wrapTable_inv3 : Inv3 wrapTable := by
  refine ⟨?_, ?_, ?_, ?_⟩
  · intro i hi j hj
    have hi' : i < 4 := hi
    have hj' : j < 4 := hj
    interval_cases i <;> interval_cases j <;> decide
  · intro i b e hi hocc he
    simp only [wrapTable, emptyTable, Function.update_apply] at he
    split_ifs at he with hb
    · simp only [List.mem_singleton] at he
      subst he
      have hi' : i < 4 := hi
      interval_cases i <;> decide
    · simp at he
  · intro b c e f hbc he hf
    simp only [wrapTable, emptyTable, Function.update_apply] at he hf
    split_ifs at he hf with hb hc
    · omega
    · simp at hf
    · simp at he
    · simp at he
  · intro b
    simp only [wrapTable, emptyTable, Function.update_apply]
    split_ifs <;> simp

theorem preSwapTable_inv1 : Inv1 preSwapTable := by
  unfold Inv1
  decide

theorem preSwapTable_inv2 : Inv2 preSwapTable := by
  intro b e he
  simp [preSwapTable, emptyTable] at he

theorem preSwapTable_inv3 : Inv3 preSwapTable := by
  refine ⟨?_, ?_, ?_, ?_⟩
  · intro i hi j hj
    have hi' : i < 4 := hi
    have hj' : j < 4 := hj
    interval_cases i <;> interval_cases j <;> decide
  · intro i b e hi hocc he
    simp [preSwapTable, emptyTable] at he
  · intro b c e f hbc he hf
    simp [preSwapTable, emptyTable] at he
  · intro b
    simp [preSwapTable, emptyTable]

theorem preSwapTable_fresh4 : ∀ w, ¬ Stored preSwapTable 4 w := by
  rintro w (⟨i, hi, ho, hk, _⟩ | ⟨b, e, he, hk, _⟩)
  · have hi' : i < 4 := hi
    interval_cases i <;> revert hk ho <;> decide
  · simp [preSwapTable, emptyTable] at he

theorem oneKeyTable_inv1 : Inv1 oneKeyTable := by
  unfold Inv1
  decide

theorem oneKeyTable_inv2 : Inv2 oneKeyTable := by
  intro b e he
  simp [oneKeyTable, emptyTable] at he

theorem oneKeyTable_inv3 : Inv3 oneKeyTable := by
  refine ⟨?_, ?_, ?_, ?_⟩
  · intro i hi j hj
    have hi' : i < 4 := hi
    have hj' : j < 4 := hj
    interval_cases i <;> interval_cases j <;> decide
  · intro i b e hi hocc he
    simp [oneKeyTable, emptyTable] at he
  · intro b c e f hbc he hf
    simp [oneKeyTable, emptyTable] at he
  · intro b
    simp [oneKeyTable, emptyTable]

/-! ## `Get`, `Remove` and the reachable states -/

section lookup

variable [DecidableEq K]

theorem probe_some {t : RobinhoodHashTable K V} {k : K} {h d : Nat}
    (hp : probe t k h = some d) :
    d ≤ t.Dm_ ∧ (t.table_ ((h + d) % t.capacity_)).occupied = true ∧
      (t.table_ ((h + d) % t.capacity_)).key = k := by
  unfold probe at hp
  have h1 := List.find?_some hp
  have h2 := List.mem_of_find?_eq_some hp
  simp only [Bool.and_eq_true, decide_eq_true_eq] at h1
  rw [List.mem_range] at h2
  exact ⟨by omega, h1.1, h1.2⟩

theorem probe_none {t : RobinhoodHashTable K V} {k : K} {h : Nat}
    (hp : probe t k h = none) (d : Nat) (hd : d ≤ t.Dm_)
    (hocc : (t.table_ ((h + d) % t.capacity_)).occupied = true) :
    (t.table_ ((h + d) % t.capacity_)).key ≠ k := by
  unfold probe at hp
  rw [List.find?_eq_none] at hp
  have := hp d (List.mem_range.mpr (by omega))
  simp only [Bool.and_eq_true, decide_eq_true_eq, not_and] at this
  exact this hocc

theorem probe_isSome {t : RobinhoodHashTable K V} {k : K} {h d : Nat} (hd : d ≤ t.Dm_)
    (hocc : (t.table_ ((h + d) % t.capacity_)).occupied = true)
    (hk : (t.table_ ((h + d) % t.capacity_)).key = k) : ∃ d', probe t k h = some d' := by
  cases hp : probe t k h with
  | some d' => exact ⟨d', rfl⟩
  | none => exact absurd hk (probe_none hp d hd hocc)

theorem Get_sound {t : RobinhoodHashTable K V} (hcap : 0 < t.capacity_) {k : K} {v : V}
    (hg : Get t k = some v) : Stored t k v := by
  unfold Get at hg
  simp only at hg
  split at hg
  · rename_i d hp
    obtain ⟨_, hocc, hk⟩ := probe_some hp
    simp only [Option.some.injEq] at hg
    exact Or.inl ⟨_, Nat.mod_lt _ hcap, hocc, hk, hg⟩
  · split at hg
    · rename_i e he
      have h1 := List.find?_some he
      have h2 := List.mem_of_find?_eq_some he
      simp only [decide_eq_true_eq] at h1
      simp only [Option.some.injEq] at hg
      exact Or.inr ⟨_, e, h2, h1, hg⟩
    · exact absurd hg (by simp)

theorem Get_isSome {t : RobinhoodHashTable K V} (hlay : Lay t) {k : K} {v : V}
    (hs : Stored t k v) : ∃ w, Get t k = some w := by
  unfold Get
  simp only
  rcases hs with ⟨i, hi, hocc, hk, _⟩ | ⟨b, e, he, hk, _⟩
  · obtain ⟨d, hd, hid⟩ := hlay.1 i hi hocc
    rw [hk] at hid
    obtain ⟨d', hp⟩ := probe_isSome (k := k) (h := t.hash_fn_ k % t.capacity_) hd
      (by rw [← hid]; exact hocc) (by rw [← hid]; exact hk)
    rw [hp]
    exact ⟨_, rfl⟩
  · cases hp : probe t k (t.hash_fn_ k % t.capacity_) with
    | some d => exact ⟨_, rfl⟩
    | none =>
      have hb := hlay.2 b e he
      rw [hk] at hb
      subst hb
      cases hf : (t.overflow_buckets_ (t.hash_fn_ k % t.capacity_)).find?
          fun entry => decide (entry.key = k) with
      | some e' => exact ⟨_, rfl⟩
      | none =>
        rw [List.find?_eq_none] at hf
        have := hf e he
        simp only [decide_eq_true_eq] at this
        exact absurd hk this

theorem Get_complete {t : RobinhoodHashTable K V} (hcap : 0 < t.capacity_) (hlay : Lay t)
    {k : K} (hf : Func t k) {v : V} (hs : Stored t k v) : Get t k = some v := by
  obtain ⟨w, hw⟩ := Get_isSome hlay hs
  rw [hw, hf w v (Get_sound hcap hw) hs]

theorem Get_none {t : RobinhoodHashTable K V} (hcap : 0 < t.capacity_) {k : K}
    (hs : ∀ v, ¬ Stored t k v) : Get t k = none := by
  cases hg : Get t k with
  | none => rfl
  | some v => exact absurd (Get_sound hcap hg) (hs v)

theorem Get_congr {t t' : RobinhoodHashTable K V} (hcap : 0 < t.capacity_)
    (hcap' : 0 < t'.capacity_) (hlay : Lay t) (hlay' : Lay t') {k : K}
    (hf : Func t k) (hst : ∀ v, Stored t' k v ↔ Stored t k v) : Get t' k = Get t k := by
  cases hg : Get t k with
  | some v =>
    refine Get_complete hcap' hlay' ?_ ((hst v).mpr (Get_sound hcap hg))
    intro a b ha hb
    exact hf a b ((hst a).mp ha) ((hst b).mp hb)
  | none =>
    refine Get_none hcap' fun v hv => ?_
    obtain ⟨w, hw⟩ := Get_isSome hlay ((hst v).mp hv)
    rw [hg] at hw
    exact absurd hw (by simp)

theorem probe_none_noSlot {t : RobinhoodHashTable K V} {k : K} (h1 : Inv1 t)
    (hp : probe t k (t.hash_fn_ k % t.capacity_) = none) (i : Nat) (hi : i < t.capacity_)
    (hocc : (t.table_ i).occupied = true) : (t.table_ i).key ≠ k := by
  intro hk
  obtain ⟨n1, n2, n3⟩ := h1 i hi hocc
  rw [n1, hk] at n3
  exact probe_none hp _ n2 (by rw [← n3]; exact hocc) (by rw [← n3]; exact hk)

theorem erase_first_key {l : List (Entry K V)} {k : K}
    (hl : l.Pairwise fun e f => e.key ≠ f.key) {e : Entry K V}
    (he : e ∈ l.eraseP fun x => decide (x.key = k)) : e.key ≠ k := by
  intro hk
  by_cases hex : ∃ a ∈ l, (fun x : Entry K V => decide (x.key = k)) a = true
  · obtain ⟨a, ha, hpa⟩ := hex
    obtain ⟨a', l1, l2, hn, hp, hl12, her⟩ := List.exists_of_eraseP (p := fun x : Entry K V => decide (x.key = k)) ha hpa
    rw [her] at he
    rw [hl12] at hl
    simp only [decide_eq_true_eq] at hp hn
    rcases List.mem_append.mp he with h | h
    · exact hn e h hk
    · have := (List.pairwise_append.mp hl).2.1
      have := (List.pairwise_cons.mp this).1 e h
      exact this (hp.trans hk.symm)
  · have := List.mem_of_mem_eraseP he
    exact hex ⟨e, this, by simpa using hk⟩

theorem InChains_erase {t : RobinhoodHashTable K V} {k : K} (h2 : Inv2 t) (h3 : Inv3 t)
    (κ : K) (v : V) :
    InChains { t with overflow_buckets_ :=
        (Function.update t.overflow_buckets_ (t.hash_fn_ k % t.capacity_)
          ((t.overflow_buckets_ (t.hash_fn_ k % t.capacity_)).eraseP
            fun entry => decide (entry.key = k))) } κ v ↔
      κ ≠ k ∧ InChains t κ v := by
  unfold InChains
  constructor
  · rintro ⟨b, e, he, hek, hev⟩
    by_cases hb : b = t.hash_fn_ k % t.capacity_
    · subst hb
      simp only [Function.update_same] at he
      refine ⟨?_, _, e, List.mem_of_mem_eraseP he, hek, hev⟩
      rw [← hek]
      exact erase_first_key (h3.2.2.2 _) he
    · simp only [Function.update_noteq hb] at he
      refine ⟨?_, b, e, he, hek, hev⟩
      intro hk
      apply hb
      obtain ⟨n2, n3⟩ := h2 b e he
      rw [← n2, n3, hek, hk]
  · rintro ⟨hne, b, e, he, hek, hev⟩
    refine ⟨b, e, ?_, hek, hev⟩
    by_cases hb : b = t.hash_fn_ k % t.capacity_
    · subst hb
      simp only [Function.update_same]
      rw [List.mem_eraseP_of_neg]
      · exact he
      · simp only [decide_eq_true_eq]
        rw [hek]
        exact hne
    · simpa only [Function.update_noteq hb] using he

/-- What `Remove` leaves behind on a state that satisfies the three invariants: every
entry lies where `Get` looks for it, nothing is stored under `k`, nothing new is stored,
and, when the chain entries are flagged occupied, nothing else is lost. -/
theorem Remove_spec {fuel : Nat} {t t' : RobinhoodHashTable K V} {k : K}
    (hcap : 0 < t.capacity_) (h1 : Inv1 t) (h2 : Inv2 t) (h3 : Inv3 t)
    (hres : Remove fuel t k = some t') :
    t'.capacity_ = t.capacity_ ∧ Lay t' ∧
      ∀ κ v, (Stored t' κ v → κ ≠ k ∧ Stored t κ v) ∧
        (ChainLive t → κ ≠ k ∧ Stored t κ v → Stored t' κ v) := by
  unfold Remove at hres
  simp only at hres
  split at hres
  · rename_i d hp
    obtain ⟨hd, hocc, hkey⟩ := probe_some hp
    have hidx : (t.hash_fn_ k % t.capacity_ + d) % t.capacity_ < t.capacity_ :=
      Nat.mod_lt _ hcap
    have hexc := fun κ v => except_iff h3 hidx hocc κ v
    rw [hkey] at hexc
    split at hres
    · rename_i front rest hov
      simp only [Option.some.injEq] at hres
      subst hres
      have hfront := h2 _ front (by rw [hov]; exact List.mem_cons_self _ _)
      refine ⟨rfl, ⟨?_, ?_⟩, ?_⟩
      · intro i hi hio
        by_cases hii : i = (t.hash_fn_ k % t.capacity_ + d) % t.capacity_
        · subst hii
          simp only [Function.update_same]
          exact ⟨d, hd, by rw [← hfront.2, hfront.1]⟩
        · simp only [Function.update_noteq hii] at hio ⊢
          exact slotLay_of_inv1 h1 i hi hio
      · intro b e he
        by_cases hb : b = t.hash_fn_ k % t.capacity_
        · subst hb
          simp only [Function.update_same] at he
          exact chainLay_of_chainHome (chainHome_of_inv2 h2) _ e (by rw [hov]; exact List.mem_cons_of_mem _ he)
        · simp only [Function.update_noteq hb] at he
          exact chainLay_of_chainHome (chainHome_of_inv2 h2) _ e he
      · intro κ v
        rw [← hexc κ v, InChains_pop hov κ v]
        have hupd := Stored_update
          { t with overflow_buckets_ :=
              Function.update t.overflow_buckets_ (t.hash_fn_ k % t.capacity_) rest }
          ((t.hash_fn_ k % t.capacity_ + d) % t.capacity_) hidx
          { front with
            distance := toUInt8
                            ((((t.hash_fn_ k % t.capacity_ + d) % t.capacity_ : Nat) : Int) -
                              (front.h_initial : Int)) } κ v
        refine ⟨fun hs => ?_, fun hl hs => hupd.mpr ?_⟩
        · rcases hupd.mp hs with (h | h) | h
          · exact Or.inl h
          · exact Or.inr (Or.inl h.2)
          · exact Or.inr (Or.inr h)
        · rcases hs with h | h | h
          · exact Or.inl (Or.inl h)
          · exact Or.inl (Or.inr ⟨hl _ front (by rw [hov]; exact List.mem_cons_self _ _), h⟩)
          · exact Or.inr h
    · rename_i hov
      split at hres
      · rename_i t1 c1 hsh
        simp only [Option.some.injEq] at hres
        subst hres
        obtain ⟨e1, e2, e3, e4, hc1, hinv, hst⟩ := shift_spec hcap hidx h1 hsh
        refine ⟨e1, ⟨slotLay_of_inv1 hinv, ?_⟩, ?_⟩
        · intro b e he
          have he' : e ∈ t.overflow_buckets_ b := by rw [← e4]; exact he
          have := chainLay_of_chainHome (chainHome_of_inv2 h2) b e he'
          show b = t1.hash_fn_ e.key % t1.capacity_
          rw [e3, e1]
          exact this
        · intro κ v
          rw [← hexc κ v, ← hst κ v]
          have hv := Stored_vacate t1 hc1 κ v
          have hiff : Stored (vacate t1 c1) κ v ↔
              InTableExcept t1 c1 κ v ∨ InChains t κ v := by
            refine hv.trans ?_
            unfold InChains
            rw [e4]
          exact ⟨hiff.mp, fun _ => hiff.mpr⟩
      · exact absurd hres (by simp)
  · rename_i hp
    simp only [Option.some.injEq] at hres
    subst hres
    refine ⟨rfl, ⟨slotLay_of_inv1 h1, ?_⟩, ?_⟩
    · intro b e he
      by_cases hb : b = t.hash_fn_ k % t.capacity_
      · subst hb
        simp only [Function.update_same] at he
        exact chainLay_of_chainHome (chainHome_of_inv2 h2) _ e (List.mem_of_mem_eraseP he)
      · simp only [Function.update_noteq hb] at he
        exact chainLay_of_chainHome (chainHome_of_inv2 h2) _ e he
    · intro κ v
      have hch := InChains_erase (k := k) h2 h3 κ v
      constructor
      · rintro (⟨i, hi, hio, hik, hiv⟩ | hc)
        · refine ⟨?_, Or.inl ⟨i, hi, hio, hik, hiv⟩⟩
          rw [← hik]
          exact probe_none_noSlot h1 hp i hi hio
        · exact ⟨(hch.mp hc).1, Or.inr (hch.mp hc).2⟩
      · rintro _ ⟨hne, (hs | hc)⟩
        · exact Or.inl hs
        · exact Or.inr (hch.mpr ⟨hne, hc⟩)

theorem Remove_homes {fuel : Nat} {t t' : RobinhoodHashTable K V} {k : K}
    (hcap : 0 < t.capacity_) (hs : SlotHome t) (hc : ChainHome t) (hl : ChainLive t)
    (hres : Remove fuel t k = some t') :
    t'.capacity_ = t.capacity_ ∧ SlotHome t' ∧ ChainHome t' ∧ ChainLive t' := by
  unfold Remove at hres
  simp only at hres
  split at hres
  · rename_i d hp
    split at hres
    · rename_i front rest hov
      simp only [Option.some.injEq] at hres
      subst hres
      have hfront := hc _ front (by rw [hov]; exact List.mem_cons_self _ _)
      have hsub : ∀ b e, e ∈ Function.update t.overflow_buckets_
          (t.hash_fn_ k % t.capacity_) rest b → e ∈ t.overflow_buckets_ b := by
        intro b e he
        by_cases hb : b = t.hash_fn_ k % t.capacity_
        · subst hb
          simp only [Function.update_same] at he
          rw [hov]; exact List.mem_cons_of_mem _ he
        · simpa only [Function.update_noteq hb] using he
      refine ⟨rfl, ?_, fun b e he => hc b e (hsub b e he), fun b e he => hl b e (hsub b e he)⟩
      intro i hi hio
      by_cases hii : i = (t.hash_fn_ k % t.capacity_ + d) % t.capacity_
      · subst hii
        simp only [Function.update_same]
        rw [hfront.1]
        exact hfront.2
      · simp only [Function.update_noteq hii] at hio ⊢
        exact hs i hi hio
    · split at hres
      · rename_i t1 c1 hsh
        simp only [Option.some.injEq] at hres
        subst hres
        obtain ⟨e1, e2, e3, e4, hs1⟩ := shiftLoop_homes hcap hs hsh
        refine ⟨e1, ?_, ?_, ?_⟩
        · intro i hi hio
          by_cases hic : i = c1
          · subst hic
            simp at hio
          · simp only [Function.update_noteq hic] at hio ⊢
            exact hs1 i hi hio
        · intro b e he
          have he' : e ∈ t.overflow_buckets_ b := by rw [← e4]; exact he
          have := hc b e he'
          show e.h_initial = b ∧ b = t1.hash_fn_ e.key % t1.capacity_
          rw [e3, e1]
          exact this
        · intro b e he
          have he' : e ∈ t.overflow_buckets_ b := by rw [← e4]; exact he
          exact hl b e he'
      · exact absurd hres (by simp)
  · simp only [Option.some.injEq] at hres
    subst hres
    have hsub : ∀ b e, e ∈ Function.update t.overflow_buckets_
        (t.hash_fn_ k % t.capacity_)
        ((t.overflow_buckets_ (t.hash_fn_ k % t.capacity_)).eraseP
          fun entry => decide (entry.key = k)) b → e ∈ t.overflow_buckets_ b := by
      intro b e he
      by_cases hb : b = t.hash_fn_ k % t.capacity_
      · subst hb
        simp only [Function.update_same] at he
        exact List.mem_of_mem_eraseP he
      · simpa only [Function.update_noteq hb] using he
    exact ⟨rfl, hs, fun b e he => hc b e (hsub b e he), fun b e he => hl b e (hsub b e he)⟩

theorem reachable_homes {t0 t : RobinhoodHashTable K V} (hcap : 0 < t0.capacity_)
    (h0 : Constructed t0) (hr : Reachable t0 t) :
    t.capacity_ = t0.capacity_ ∧ SlotHome t ∧ ChainHome t ∧ ChainLive t := by
  induction hr with
  | init =>
    refine ⟨rfl, ?_, ?_, ?_⟩
    · intro i hi hocc
      rw [h0.1 i hi] at hocc
      exact absurd hocc (by simp)
    · intro b e he
      rw [h0.2 b] at he
      exact absurd he (List.not_mem_nil _)
    · intro b e he
      rw [h0.2 b] at he
      exact absurd he (List.not_mem_nil _)
  | put fuel key value _ hput ih =>
    obtain ⟨e, hs, hc, hl⟩ := ih
    obtain ⟨e', hs', hc', hl'⟩ := Put_homes (by omega) hs hc hl hput
    exact ⟨e'.trans e, hs', hc', hl'⟩
  | get key r _ _ ih => exact ih
  | remove fuel key _ hrem ih =>
    obtain ⟨e, hs, hc, hl⟩ := ih
    obtain ⟨e', hs', hc', hl'⟩ := Remove_homes (by omega) hs hc hl hrem
    exact ⟨e'.trans e, hs', hc', hl'⟩

theorem demoTable_reachable : Reachable (emptyTable 4 1) demoTable :=
  Reachable.put 4 8 3 (Reachable.put 4 4 2 (Reachable.put 4 0 1 Reachable.init rfl) rfl) rfl

theorem shiftTable_reachable : Reachable (emptyTable 4 2) shiftTable :=
  Reachable.put 4 1 3 (Reachable.put 4 4 2 (Reachable.put 4 0 1 Reachable.init rfl) rfl) rfl

theorem wrapTable_reachable : Reachable (emptyTable 4 1) wrapTable :=
  Reachable.put 4 11 3 (Reachable.put 4 7 2 (Reachable.put 4 3 1 Reachable.init rfl) rfl) rfl

theorem swapTable_reachable : Reachable (emptyTable 4 1) swapTable :=
  Reachable.put 4 4 4 (Reachable.put 4 5 3 (Reachable.put 4 1 2
    (Reachable.put 4 0 1 Reachable.init rfl) rfl) rfl) rfl

theorem Remove_terminates (t : RobinhoodHashTable K V) (k : K) (hcap : 0 < t.capacity_) :
    ∃ fuel t', Remove fuel t k = some t' := by
  cases hp : probe t k (t.hash_fn_ k % t.capacity_) with
  | none =>
    refine ⟨0, ?_⟩
    unfold Remove
    simp only [hp]
    exact ⟨_, rfl⟩
  | some d =>
    cases hov : t.overflow_buckets_ (t.hash_fn_ k % t.capacity_) with
    | cons front rest =>
      refine ⟨0, ?_⟩
      unfold Remove
      simp only [hp, hov]
      exact ⟨_, rfl⟩
    | nil =>
      obtain ⟨⟨t1, c1⟩, hr⟩ := shiftLoop_terminates (t.hash_fn_ k % t.capacity_) _ t
        ((t.hash_fn_ k % t.capacity_ + d) % t.capacity_) hcap (Nat.mod_lt _ hcap)
        (Nat.lt_succ_self _)
      refine ⟨(stepsTo t.capacity_ ((t.hash_fn_ k % t.capacity_ + t.Dm_ + 1) % t.capacity_)
        ((t.hash_fn_ k % t.capacity_ + d) % t.capacity_)).succ, ?_⟩
      unfold Remove
      simp only [hp, hov, hr]
      exact ⟨_, rfl⟩

end lookup

/-! ## Fuel, and the probe that finds nothing -/

/-- More fuel does not change what the displacement loop returns. -/
theorem putLoop_mono {n : Nat} {t t' : RobinhoodHashTable K V} {h : Nat} {cur : Entry K V}
    (hres : putLoop n t h cur = some t') : ∀ m, n ≤ m → putLoop m t h cur = some t' := by
  induction n generalizing t h cur with
  | zero => simp [putLoop] at hres
  | succ n ih =>
    intro m hm
    obtain ⟨m', rfl⟩ : ∃ m', m = m' + 1 := ⟨m - 1, by omega⟩
    simp only [putLoop, transactional_swap] at hres ⊢
    split_ifs at hres ⊢ with h1 h2 h3
    · exact hres
    · exact hres
    · exact ih hres m' (by omega)
    · exact ih hres m' (by omega)

/-- The probe finds nothing exactly when no slot of the window is occupied by `k`. -/
theorem probe_eq_none_iff [DecidableEq K] (t : RobinhoodHashTable K V) (k : K) (h : Nat) :
    probe t k h = none ↔
      ∀ d, d ≤ t.Dm_ → ¬ ((t.table_ ((h + d) % t.capacity_)).occupied = true ∧
        (t.table_ ((h + d) % t.capacity_)).key = k) := by
  unfold probe
  rw [List.find?_eq_none]
  constructor
  · intro hp d hd
    have := hp d (List.mem_range.mpr (by omega))
    simpa only [Bool.and_eq_true, decide_eq_true_eq] using this
  · intro hp d hd
    have := hp d (by have := List.mem_range.mp hd; omega)
    simpa only [Bool.and_eq_true, decide_eq_true_eq] using this

/-- The displacement loop is the iteration of `putStep`. -/
theorem putLoop_succ (fuel : Nat) (t : RobinhoodHashTable K V) (h : Nat) (cur : Entry K V) :
    putLoop (fuel + 1) t h cur =
      match putStep t h cur with
      | Sum.inl t' => some t'
      | Sum.inr (t1, h1, c1) => putLoop fuel t1 h1 c1 := by
  simp only [putLoop, putStep, transactional_swap]
  split_ifs <;> rfl

theorem evictTable_reachable : Reachable (emptyTable 4 2) evictTable :=
  Reachable.put 1 2 3 (Reachable.put 2 4 2 (Reachable.put 1 0 1 (Reachable.init) rfl) rfl) rfl

/-! ## The multiset of stored triples -/

theorem slotTriples_update_ge (f : Nat → Entry K V) (idx : Nat) (e : Entry K V) :
    ∀ n, n ≤ idx → slotTriples (Function.update f idx e) n = slotTriples f n := by
  intro n
  induction n with
  | zero => intro _; rfl
  | succ m ih =>
    intro hm
    have hne : m ≠ idx := by omega
    simp only [slotTriples, Function.update_noteq hne, ih (by omega)]

/-- Overwriting slot `idx` exchanges the triple of the old entry for that of the new. -/
theorem slotTriples_update (f : Nat → Entry K V) (idx : Nat) (e : Entry K V) :
    ∀ n, idx < n →
      slotTriples (Function.update f idx e) n +
          (if (f idx).occupied = true then {(f idx).triple} else 0) =
        slotTriples f n + (if e.occupied = true then {e.triple} else 0) := by
  intro n
  induction n with
  | zero => intro h; omega
  | succ m ih =>
    intro hm
    by_cases hmi : m = idx
    · subst hmi
      simp only [slotTriples, Function.update_same, slotTriples_update_ge f m e m (le_refl m)]
      abel
    · have := ih (by omega)
      simp only [slotTriples, Function.update_noteq hmi]
      rw [add_right_comm, this, add_right_comm]

/-- Appending an entry to a chain whose key is counted adds its triple. -/
theorem chainTriples_push (ov : Nat → List (Entry K V)) (S : Finset Nat) (h : Nat)
    (e : Entry K V) (hS : h ∈ S) :
    chainTriples (Function.update ov h (ov h ++ [e])) S = chainTriples ov S + {e.triple} := by
  unfold chainTriples
  rw [← Finset.add_sum_erase S _ hS, ← Finset.add_sum_erase S
    (fun b => (((ov b).map Entry.triple : List (K × V × Nat)) : Multiset (K × V × Nat))) hS]
  have hrest : ∀ b ∈ S.erase h,
      (((Function.update ov h (ov h ++ [e]) b).map Entry.triple : List (K × V × Nat)) :
        Multiset (K × V × Nat)) = (((ov b).map Entry.triple : List (K × V × Nat)) :
        Multiset (K × V × Nat)) := by
    intro b hb
    rw [Function.update_noteq (Finset.ne_of_mem_erase hb)]
  rw [Finset.sum_congr rfl hrest]
  simp only [Function.update_same, List.map_append, List.map_cons, List.map_nil,
    ← Multiset.coe_add, ← Multiset.coe_singleton]
  abel

/-- The displacement loop adds the triple of the candidate and keeps the others. -/
theorem putLoop_triples {fuel : Nat} {t t' : RobinhoodHashTable K V} {h : Nat}
    {cur : Entry K V} (hcap : 0 < t.capacity_) (hocc : cur.occupied = true)
    (hres : putLoop fuel t h cur = some t') (S : Finset Nat)
    (hS : ∀ b, t'.overflow_buckets_ b ≠ [] → b ∈ S) :
    storedTriples t' S = storedTriples t S + {cur.triple} := by
  refine putLoop_rule
    (fun s _ c => 0 < s.capacity_ ∧ c.occupied = true ∧
      storedTriples s S + {c.triple} = storedTriples t S + {cur.triple})
    (fun s => (∀ b, s.overflow_buckets_ b ≠ [] → b ∈ S) →
      storedTriples s S = storedTriples t S + {cur.triple})
    ?_ ?_ ?_ ?_ fuel t h cur t' ⟨hcap, hocc, rfl⟩ hres hS
  · rintro s g c ⟨_, _, hP⟩ _ hin
    have hg : g ∈ S := hin g (by simp)
    rw [← hP]
    simp only [storedTriples, chainTriples_push _ S g c hg, add_assoc]
  · rintro s g c ⟨hc, ho, hP⟩ _ hvac _
    have := slotTriples_update s.table_ ((g + c.distance.val) % s.capacity_) c s.capacity_
      (Nat.mod_lt _ hc)
    simp only [hvac, ho, Bool.false_eq_true, if_false, if_true, add_zero] at this
    rw [← hP]
    simp only [storedTriples, this]
    abel
  · rintro s g c ⟨hc, ho, hP⟩ _ hex _
    refine ⟨hc, hex, ?_⟩
    have := slotTriples_update s.table_ ((g + c.distance.val) % s.capacity_) c s.capacity_
      (Nat.mod_lt _ hc)
    simp only [hex, ho, if_true] at this
    rw [← hP]
    simp only [storedTriples, Entry.triple] at this ⊢
    rw [add_right_comm, this]
    abel
  · rintro s g c ⟨hc, ho, hP⟩ _ _ _
    exact ⟨hc, ho, hP⟩

/-- The displacement loop empties no chain. -/
theorem putLoop_chains_grow {fuel : Nat} {t t' : RobinhoodHashTable K V} {h : Nat}
    {cur : Entry K V} (hres : putLoop fuel t h cur = some t') :
    ∀ b, t.overflow_buckets_ b ≠ [] → t'.overflow_buckets_ b ≠ [] := by
  refine putLoop_rule
    (fun s _ _ => ∀ b, t.overflow_buckets_ b ≠ [] → s.overflow_buckets_ b ≠ [])
    (fun s => ∀ b, t.overflow_buckets_ b ≠ [] → s.overflow_buckets_ b ≠ [])
    ?_ ?_ ?_ ?_ fuel t h cur t' (fun _ hb => hb) hres
  · intro s g c hP _ b hb
    by_cases hbg : b = g
    · subst hbg
      simp
    · simp only [Function.update_noteq hbg]
      exact hP b hb
  · intro s g c hP _ _
    exact hP
  · intro s g c hP _ _ _
    exact hP
  · intro s g c hP _ _ _
    exact hP

/-! ## The backward shift in closed form -/

/-- Moving on by fewer than `n` slots, and by at least one, leaves the slot. -/
theorem add_mod_ne_self {n c j : Nat} (hc : c < n) (hj0 : 0 < j) (hj : j < n) :
    (c + j) % n ≠ c := by
  by_cases h : c + j < n
  · rw [Nat.mod_eq_of_lt h]
    omega
  · rw [Nat.mod_eq_sub_mod (by omega), Nat.mod_eq_of_lt (by omega)]
    omega

/-- The stop test at the position `n` slots after `c`, in terms of offsets from `c`. -/
theorem refShiftStop_offset (t : RobinhoodHashTable K V) (h c n : Nat) :
    refShiftStop t h ((c + n) % t.capacity_) ↔
      ((c + (n + 1)) % t.capacity_ = (h + t.Dm_ + 1) % t.capacity_ ∨
        (t.table_ ((c + (n + 1)) % t.capacity_)).occupied = false ∨
        (t.table_ ((c + (n + 1)) % t.capacity_)).distance.val = 0) := by
  unfold refShiftStop
  rw [Nat.mod_add_mod, Nat.add_assoc]

/-- More fuel does not change what the backward-shift loop returns. -/
theorem shiftLoop_mono {n : Nat} {t : RobinhoodHashTable K V} {h c : Nat}
    {r : RobinhoodHashTable K V × Nat} (hres : shiftLoop n t h c = some r) :
    ∀ m, n ≤ m → shiftLoop m t h c = some r := by
  induction n generalizing t c with
  | zero => simp [shiftLoop] at hres
  | succ n ih =>
    intro m hm
    obtain ⟨m', rfl⟩ : ∃ m', m = m' + 1 := ⟨m - 1, by omega⟩
    simp only [shiftLoop] at hres ⊢
    split_ifs at hres ⊢ with h1 h2
    · exact hres
    · exact ih hres m' (by omega)
    · exact hres

/-- The backward-shift loop in closed form: when the first stop position lies `m` slots
after `c`, the loop ends there, having written into each of the `m` slots before it the
shifted entry of its successor, and nothing else. -/
theorem shiftLoop_closed (h : Nat) :
    ∀ (m : Nat) (t : RobinhoodHashTable K V) (c : Nat), c < t.capacity_ →
      m < t.capacity_ →
      (∀ n, n < m → ¬ refShiftStop t h ((c + n) % t.capacity_)) →
      refShiftStop t h ((c + m) % t.capacity_) →
      (m + 1 < t.capacity_ ∨ (c + (m + 1)) % t.capacity_ = (h + t.Dm_ + 1) % t.capacity_) →
      ∀ fuel, m < fuel →
        ∃ t1, shiftLoop fuel t h c = some (t1, (c + m) % t.capacity_) ∧
          (∀ n, n < m → t1.table_ ((c + n) % t.capacity_) =
            shiftedEntry t ((c + n) % t.capacity_)) ∧
          (∀ x, (∀ n, n < m → x ≠ (c + n) % t.capacity_) → t1.table_ x = t.table_ x) := by
  intro m
  induction m with
  | zero =>
    intro t c hc _ _ hstop _ fuel hfuel
    obtain ⟨f, rfl⟩ : ∃ f, fuel = f + 1 := ⟨fuel - 1, by omega⟩
    simp only [Nat.add_zero, Nat.mod_eq_of_lt hc] at hstop ⊢
    refine ⟨t, ?_, fun n hn => absurd hn (Nat.not_lt_zero n), fun _ _ => rfl⟩
    unfold refShiftStop at hstop
    simp only [shiftLoop]
    split_ifs with h1 h2
    · rfl
    · exfalso
      simp only [not_or] at h1
      rcases hstop with hs | hs | hs
      · exact h1.1 hs
      · exact h1.2 hs
      · omega
    · rfl
  | succ m ih =>
    intro t c hc hm hgo hstop hw fuel hfuel
    obtain ⟨f, rfl⟩ : ∃ f, fuel = f + 1 := ⟨fuel - 1, by omega⟩
    have hcap : 0 < t.capacity_ := by omega
    have hgo0 := hgo 0 (Nat.succ_pos m)
    rw [Nat.add_zero, Nat.mod_eq_of_lt hc] at hgo0
    unfold refShiftStop at hgo0
    simp only [not_or] at hgo0
    obtain ⟨g1, g2, g3⟩ := hgo0
    have hnx : ∀ n, ((c + 1) % t.capacity_ + n) % t.capacity_ =
        (c + (n + 1)) % t.capacity_ := by
      intro n
      rw [Nat.mod_add_mod]
      congr 1
      omega
    have hfar : ∀ n, n < m + 1 → (c + (n + 1)) % t.capacity_ ≠ c := fun n hn =>
      add_mod_ne_self hc (Nat.succ_pos n) (by omega)
    obtain ⟨t2, hrun, hshift, hframe⟩ :=
      ih { t with table_ := Function.update t.table_ c (shiftedEntry t c) }
        ((c + 1) % t.capacity_) (Nat.mod_lt _ hcap) (by simp only; omega)
        (fun n hn => by
          simp only [hnx]
          rw [refShiftStop_offset]
          have := hgo (n + 1) (by omega)
          rw [refShiftStop_offset] at this
          simpa only [Function.update_noteq (hfar (n + 1) (by omega))] using this)
        (by
          simp only [hnx]
          rw [refShiftStop_offset] at hstop ⊢
          rcases hw with hw | hw
          · simpa only [Function.update_noteq (add_mod_ne_self hc (Nat.succ_pos (m + 1)) hw)]
              using hstop
          · exact Or.inl hw)
        (Or.inl (by simp only; omega)) f (by omega)
    simp only [hnx] at hrun hshift hframe
    refine ⟨t2, ?_, ?_, ?_⟩
    · simp only [shiftLoop]
      rw [if_neg (by simp only [not_or]; exact ⟨g1, g2⟩), if_pos (by omega)]
      exact hrun
    · intro n hn
      cases n with
      | zero =>
        rw [Nat.add_zero, Nat.mod_eq_of_lt hc]
        rw [hframe c fun n hn => (hfar n (by omega)).symm]
        simp only [Function.update_same]
      | succ n =>
        rw [hshift n (by omega)]
        simp only [shiftedEntry]
        rw [Nat.mod_add_mod, Function.update_noteq]
        have := hfar (n + 1) (by omega)
        rwa [← Nat.add_assoc] at this
    · intro x hx
      have hxc : x ≠ c := by
        have := hx 0 (Nat.succ_pos m)
        rwa [Nat.add_zero, Nat.mod_eq_of_lt hc] at this
      rw [hframe x fun n hn => hx (n + 1) (by omega)]
      simp only [Function.update_noteq hxc]

/-- More fuel does not change what `Remove` returns. -/
theorem Remove_mono [DecidableEq K] {n : Nat} {t t' : RobinhoodHashTable K V} {k : K}
    (hres : Remove n t k = some t') : ∀ m, n ≤ m → Remove m t k = some t' := by
  intro m hm
  unfold Remove at hres ⊢
  simp only at hres ⊢
  cases hp : probe t k (t.hash_fn_ k % t.capacity_) with
  | none =>
    rw [hp] at hres
    exact hres
  | some d =>
    rw [hp] at hres
    simp only at hres ⊢
    cases hc : t.overflow_buckets_ (t.hash_fn_ k % t.capacity_) with
    | cons front rest =>
      rw [hc] at hres
      exact hres
    | nil =>
      rw [hc] at hres
      simp only at hres ⊢
      cases hs : shiftLoop n t (t.hash_fn_ k % t.capacity_)
          ((t.hash_fn_ k % t.capacity_ + d) % t.capacity_) with
      | none =>
        rw [hs] at hres
        simp at hres
      | some r =>
        rw [hs] at hres
        rw [shiftLoop_mono hs m hm]
        exact hres

/-! ## The claims of the specification -/

/-- C1 (round trip for a fresh key). On a table with capacity > 0 and Dm <= 254 that
satisfies invariant 1 and invariant 2, for a key `k` stored nowhere in the primary table
or in a chain, `Put(k, v)` returns, and `Get(k)` on the state it produces is `v`. (The
claim also assumes Dm < capacity and invariant 3; neither is needed.) -/
theorem put_then_get_fresh [DecidableEq K] (t : RobinhoodHashTable K V) (k : K) (v : V)
    (hcap : 0 < t.capacity_) (hDm : t.Dm_ ≤ 254) (h1 : Inv1 t) (h2 : Inv2 t)
    (hfresh : ∀ w, ¬ Stored t k w) :
    (∃ fuel t', Put fuel t k v = some t') ∧
      ∀ fuel t', Put fuel t k v = some t' → Get t' k = some v := by
  refine ⟨Put_terminates t k v hcap hDm, ?_⟩
  intro fuel t' hres
  obtain ⟨hcap', hlay⟩ := Put_lay hcap h1 h2 hres
  have hst := Put_stored hcap hres k
  refine Get_complete hcap' hlay ?_ ((hst v).mpr (Or.inr ⟨rfl, rfl⟩))
  intro a b ha hb
  rcases (hst a).mp ha with ha | ⟨_, ha⟩
  · exact absurd ha (hfresh a)
  · rcases (hst b).mp hb with hb | ⟨_, hb⟩
    · exact absurd hb (hfresh b)
    · rw [← ha, ← hb]

/-- C1 at two concrete inputs: `Put(12, 7)` on `demoTable`, where key 12 finds slots 0
and 1 taken and overflows, and `Put(4, 4)` on `preSwapTable`, where key 4 is swapped into
slot 1 and the evicted key 1 overflows. -/
theorem put_then_get_fresh_witness :
    ((∃ fuel t', Put fuel demoTable 12 7 = some t') ∧
      ∀ fuel t', Put fuel demoTable 12 7 = some t' → Get t' 12 = some 7) ∧
    ((∃ fuel t', Put fuel preSwapTable 4 4 = some t') ∧
      ∀ fuel t', Put fuel preSwapTable 4 4 = some t' → Get t' 4 = some 4) :=
  ⟨put_then_get_fresh demoTable 12 7 (by decide) (by decide) demoTable_inv1 demoTable_inv2
      demoTable_fresh12,
    put_then_get_fresh preSwapTable 4 4 (by decide) (by decide) preSwapTable_inv1
      preSwapTable_inv2 preSwapTable_fresh4⟩

/-- C2 (the code at the failing input). The table holding key 0 with value 1 satisfies
invariants 1-3; `Put(0, 2)` on it does not update in place: it leaves slot 0 as it was and
writes a second entry for key 0 into slot 1, so the occupied slots go from one to two
while every chain stays empty, and `Get(0)` still returns the old value 1. -/
theorem put_existing_key_adds_second_entry :
    Put 4 (emptyTable 4 1) 0 1 = some oneKeyTable ∧
      Inv1 oneKeyTable ∧ Inv2 oneKeyTable ∧ Inv3 oneKeyTable ∧
      Get oneKeyTable 0 = some 1 ∧
      Put 4 oneKeyTable 0 2 = some twoCopiesTable ∧
      occupiedSlots oneKeyTable = [0] ∧ occupiedSlots twoCopiesTable = [0, 1] ∧
      (∀ b, oneKeyTable.overflow_buckets_ b = []) ∧
      (∀ b, twoCopiesTable.overflow_buckets_ b = []) ∧
      (twoCopiesTable.table_ 0).key = 0 ∧ (twoCopiesTable.table_ 1).key = 0 ∧
      Get twoCopiesTable 0 = some 1 :=
  ⟨rfl, oneKeyTable_inv1, oneKeyTable_inv2, oneKeyTable_inv3, rfl, rfl, rfl, rfl,
    fun _ => rfl, fun _ => rfl, rfl, rfl, rfl⟩

/-- C3 (the code at the failing input). `Put(0, 1)` followed by `Put(0, 2)` on the empty
table of capacity 4 and threshold 1 reaches a state in which slots 0 and 1 are both
occupied by key 0: uniqueness (invariant 3) fails in a reachable state. -/
theorem reachable_state_with_duplicate_key :
    Reachable (emptyTable 4 1) twoCopiesTable ∧
      (twoCopiesTable.table_ 0).occupied = true ∧ (twoCopiesTable.table_ 1).occupied = true ∧
      (twoCopiesTable.table_ 0).key = (twoCopiesTable.table_ 1).key ∧
      ¬ Inv3 twoCopiesTable :=
  ⟨Reachable.put 4 0 2 (Reachable.put 4 0 1 Reachable.init rfl) rfl, rfl, rfl, rfl,
    fun h => h.1 0 (by decide) 1 (by decide) rfl rfl (by decide) rfl⟩

/-- C4 (removal removes). On a table with capacity > 0 that satisfies invariants 1-3,
`Remove(k)` returns, and `Get(k)` on the state it produces is the empty result, wherever
`k` was stored or not. (The claim also assumes Dm < capacity, which is not needed.) -/
theorem remove_then_get_none [DecidableEq K] (t : RobinhoodHashTable K V) (k : K)
    (hcap : 0 < t.capacity_) (h1 : Inv1 t) (h2 : Inv2 t) (h3 : Inv3 t) :
    (∃ fuel t', Remove fuel t k = some t') ∧
      ∀ fuel t', Remove fuel t k = some t' → Get t' k = none := by
  refine ⟨Remove_terminates t k hcap, ?_⟩
  intro fuel t' hres
  obtain ⟨hc, _, hst⟩ := Remove_spec hcap h1 h2 h3 hres
  refine Get_none (by omega) fun w hw => ?_
  exact ((hst k w).1 hw).1 rfl

/-- C4 at three concrete inputs on `demoTable`: `Remove(0)`, whose key sits in the
primary table, `Remove(8)`, whose key sits in a chain, and `Remove(12)`, whose key is
not stored. -/
theorem remove_then_get_none_witness :
    ((∃ fuel t', Remove fuel demoTable 0 = some t') ∧
      ∀ fuel t', Remove fuel demoTable 0 = some t' → Get t' 0 = none) ∧
    ((∃ fuel t', Remove fuel demoTable 8 = some t') ∧
      ∀ fuel t', Remove fuel demoTable 8 = some t' → Get t' 8 = none) ∧
    ((∃ fuel t', Remove fuel demoTable 12 = some t') ∧
      ∀ fuel t', Remove fuel demoTable 12 = some t' → Get t' 12 = none) :=
  ⟨remove_then_get_none demoTable 0 (by decide) demoTable_inv1 demoTable_inv2 demoTable_inv3,
    remove_then_get_none demoTable 8 (by decide) demoTable_inv1 demoTable_inv2 demoTable_inv3,
    remove_then_get_none demoTable 12 (by decide) demoTable_inv1 demoTable_inv2
      demoTable_inv3⟩

/-- C5 (removal keeps every survivor reachable). On every table state that calls of
`Put`, `Get` and `Remove` produce from a freshly constructed table of capacity > 0 and
that satisfies invariants 1-3, `Remove(k)` returns, and `Get(k')` on the state it
produces equals `Get(k')` before, for every key `k'` other than `k`; this covers the
overflow-promotion branch, the backward-shift branch and the overflow-erase branch.
(Dm < capacity is not needed.) -/
theorem remove_keeps_other_keys [DecidableEq K] (t0 t : RobinhoodHashTable K V) (k k' : K)
    (hcap : 0 < t0.capacity_) (h0 : Constructed t0) (hr : Reachable t0 t)
    (h1 : Inv1 t) (h2 : Inv2 t) (h3 : Inv3 t) (hne : k' ≠ k) :
    (∃ fuel t', Remove fuel t k = some t') ∧
      ∀ fuel t', Remove fuel t k = some t' → Get t' k' = Get t k' := by
  obtain ⟨hc0, -, -, hlive⟩ := reachable_homes hcap h0 hr
  have hcapt : 0 < t.capacity_ := by omega
  refine ⟨Remove_terminates t k hcapt, ?_⟩
  intro fuel t' hres
  obtain ⟨hc, hlay, hst⟩ := Remove_spec hcapt h1 h2 h3 hres
  refine Get_congr hcapt (by omega)
    ⟨slotLay_of_inv1 h1, chainLay_of_chainHome (chainHome_of_inv2 h2)⟩ hlay
    (func_of_inv3 h3 k') ?_
  intro w
  exact ⟨fun h => ((hst k' w).1 h).2, fun h => (hst k' w).2 hlive ⟨hne, h⟩⟩

/-- C5 at two concrete inputs: `Remove(0)` on `demoTable` promotes key 8 from the chain
and on `shiftTable` shifts keys 4 and 1 back by one slot. -/
theorem remove_keeps_other_keys_witness :
    ((∃ fuel t', Remove fuel demoTable 0 = some t') ∧
      ∀ fuel t', Remove fuel demoTable 0 = some t' → Get t' 8 = Get demoTable 8) ∧
    ((∃ fuel t', Remove fuel shiftTable 0 = some t') ∧
      ∀ fuel t', Remove fuel shiftTable 0 = some t' → Get t' 1 = Get shiftTable 1) :=
  ⟨remove_keeps_other_keys (emptyTable 4 1) demoTable 0 8 (by decide)
      (emptyTable_constructed 4 1) demoTable_reachable demoTable_inv1 demoTable_inv2
      demoTable_inv3 (by decide),
    remove_keeps_other_keys (emptyTable 4 2) shiftTable 0 1 (by decide)
      (emptyTable_constructed 4 2) shiftTable_reachable shiftTable_inv1 shiftTable_inv2
      shiftTable_inv3 (by decide)⟩

/-- C6 (Put keeps the other keys). On a table with capacity > 0 and Dm <= 254 that
satisfies invariants 1-3, `Put(k, v)` returns, and `Get(k')` on the state it produces
equals `Get(k')` before, for every key `k'` other than `k`. (The claim also assumes
Dm < capacity, which is not needed.) -/
theorem put_keeps_other_keys [DecidableEq K] (t : RobinhoodHashTable K V) (k : K) (v : V) (k' : K)
    (hcap : 0 < t.capacity_) (hDm : t.Dm_ ≤ 254) (h1 : Inv1 t) (h2 : Inv2 t) (h3 : Inv3 t)
    (hne : k' ≠ k) :
    (∃ fuel t', Put fuel t k v = some t') ∧
      ∀ fuel t', Put fuel t k v = some t' → Get t' k' = Get t k' := by
  refine ⟨Put_terminates t k v hcap hDm, ?_⟩
  intro fuel t' hres
  obtain ⟨hcap', hlay⟩ := Put_lay hcap h1 h2 hres
  refine Get_congr hcap hcap' ⟨slotLay_of_inv1 h1, chainLay_of_chainHome (chainHome_of_inv2 h2)⟩
    hlay (func_of_inv3 h3 k') ?_
  intro w
  rw [Put_stored hcap hres k' w]
  constructor
  · rintro (h | ⟨h, _⟩)
    · exact h
    · exact absurd h.symm hne
  · exact Or.inl

/-- C6 at two concrete inputs: `Put(12, 7)` on `demoTable` leaves the lookup of key 8,
stored in a chain, as it was, and `Put(4, 4)` on `preSwapTable` leaves the lookup of
key 1 as it was although key 1 is evicted from slot 1 and pushed into a chain. -/
theorem put_keeps_other_keys_witness :
    ((∃ fuel t', Put fuel demoTable 12 7 = some t') ∧
      ∀ fuel t', Put fuel demoTable 12 7 = some t' → Get t' 8 = Get demoTable 8) ∧
    ((∃ fuel t', Put fuel preSwapTable 4 4 = some t') ∧
      ∀ fuel t', Put fuel preSwapTable 4 4 = some t' → Get t' 1 = Get preSwapTable 1) :=
  ⟨put_keeps_other_keys demoTable 12 7 8 (by decide) (by decide) demoTable_inv1
      demoTable_inv2 demoTable_inv3 (by decide),
    put_keeps_other_keys preSwapTable 4 4 1 (by decide) (by decide) preSwapTable_inv1
      preSwapTable_inv2 preSwapTable_inv3 (by decide)⟩

/-- C7 (Put preserves the displacement bound). With capacity > 0 and Dm <= 254, if every
occupied primary slot `i` holds an entry with `distance <= Dm` and
`i = (home + distance) mod capacity`, then `Put(k, v)` returns and the same holds in
the state it produces. (The claim also assumes Dm < capacity, which is not needed.) -/
theorem put_preserves_displacement_bound (t : RobinhoodHashTable K V) (k : K) (v : V)
    (hcap : 0 < t.capacity_) (hDm : t.Dm_ ≤ 254)
    (hd : ∀ i, i < t.capacity_ → (t.table_ i).occupied = true →
      (t.table_ i).distance.val ≤ t.Dm_ ∧
        i = ((t.table_ i).h_initial + (t.table_ i).distance.val) % t.capacity_) :
    (∃ fuel t', Put fuel t k v = some t') ∧
      ∀ fuel t', Put fuel t k v = some t' →
        ∀ i, i < t'.capacity_ → (t'.table_ i).occupied = true →
          (t'.table_ i).distance.val ≤ t'.Dm_ ∧
            i = ((t'.table_ i).h_initial + (t'.table_ i).distance.val) % t'.capacity_ := by
  refine ⟨Put_terminates t k v hcap hDm, ?_⟩
  intro fuel t' hres
  unfold Put at hres
  simp only at hres
  refine putLoop_dispBound hd ?_ hres
  rfl

/-- C7 at a concrete input: `Put(4, 4)` on `preSwapTable`, which swaps key 4 into
slot 1. -/
theorem put_preserves_displacement_bound_witness :
    (∃ fuel t', Put fuel preSwapTable 4 4 = some t') ∧
      ∀ fuel t', Put fuel preSwapTable 4 4 = some t' →
        ∀ i, i < t'.capacity_ → (t'.table_ i).occupied = true →
          (t'.table_ i).distance.val ≤ t'.Dm_ ∧
            i = ((t'.table_ i).h_initial + (t'.table_ i).distance.val) % t'.capacity_ :=
  put_preserves_displacement_bound preSwapTable 4 4 (by decide) (by decide)
    (dispBound_of_inv1 preSwapTable_inv1)

/-- C8 (the code at the failing input). The table reached by `Put(3, 1)`, `Put(7, 2)`,
`Put(11, 3)` satisfies invariants 1-3. `Remove(7)` finds key 7 in slot 0, promotes key 11
(home 3) from the chain of bucket 3 into slot 0 and stores the distance `0 - 3` narrowed
to 8 bits, which is 253, where `(0 - 3) mod 4 = 1`: the state after `Remove` violates
invariant 1. -/
theorem remove_promotion_wraps_distance :
    Reachable (emptyTable 4 1) wrapTable ∧ Inv1 wrapTable ∧ Inv2 wrapTable ∧ Inv3 wrapTable ∧
      ∃ t', Remove 0 wrapTable 7 = some t' ∧
        (t'.table_ 0).occupied = true ∧ (t'.table_ 0).key = 11 ∧
        (t'.table_ 0).h_initial = 3 ∧ (t'.table_ 0).distance.val = 253 ∧
        ((0 : Int) - 3) % 4 = 1 ∧ t'.Dm_ = 1 ∧ ¬ Inv1 t' :=
  ⟨wrapTable_reachable, wrapTable_inv1, wrapTable_inv2, wrapTable_inv3, _, rfl, rfl, rfl, rfl,
    rfl, by decide, rfl, fun h => absurd (h 0 (by decide) rfl).2.1 (by decide)⟩

/-- C9 (overflow entries are filed under their own home). In every state reachable from
a freshly constructed table (of capacity > 0, below which the source's `% capacity_` is
undefined) by `Put`, `Get` and `Remove` calls, every entry
of the chain keyed by bucket `b` has `home = b = hash(key) mod capacity`; that covers
the candidate that overflows after swaps, which `Put` files under the candidate's own
home because the routing variable is rebound to it at each swap. -/
theorem overflow_filed_under_own_home [DecidableEq K] (t0 t : RobinhoodHashTable K V)
    (hcap : 0 < t0.capacity_) (h0 : Constructed t0) (hr : Reachable t0 t) :
    ∀ b e, e ∈ t.overflow_buckets_ b →
      e.h_initial = b ∧ b = t.hash_fn_ e.key % t.capacity_ :=
  (reachable_homes hcap h0 hr).2.2.1

/-- C9 at a concrete input: in `swapTable` the call `Put(4, 4)`, whose key has home 0,
swapped key 1 out of slot 1; key 1 then overflowed and sits in the chain of its own
home, bucket 1. -/
theorem overflow_filed_under_own_home_witness :
    Reachable (emptyTable 4 1) swapTable ∧
      swapTable.overflow_buckets_ 1 = [⟨1, 2, true, 1, 2⟩] ∧
      ∀ b e, e ∈ swapTable.overflow_buckets_ b →
        e.h_initial = b ∧ b = swapTable.hash_fn_ e.key % swapTable.capacity_ :=
  ⟨swapTable_reachable, rfl,
    overflow_filed_under_own_home (emptyTable 4 1) swapTable (by decide)
      (emptyTable_constructed 4 1) swapTable_reachable⟩

/-- C10 (overflow promotion order). On every table state that calls of `Put`, `Get` and
`Remove` produce from a freshly constructed table of capacity > 0: when `Remove(k)` finds
`k` in the primary table at slot `i = (home(k) + d) mod capacity` and the chain of
`home(k)` is the non-empty sequence `front :: rest`, then the state has capacity > 0,
`Remove` returns and afterwards slot `i` is occupied and holds `front`'s key, value and home, the chain of `home(k)` is
exactly `rest`, and every other chain and every other slot is unchanged. -/
theorem remove_promotes_oldest [DecidableEq K] (t0 t : RobinhoodHashTable K V) (k : K)
    (fuel d : Nat) (front : Entry K V) (rest : List (Entry K V))
    (hcap : 0 < t0.capacity_) (h0 : Constructed t0) (hr : Reachable t0 t)
    (hfound : probe t k (t.hash_fn_ k % t.capacity_) = some d)
    (hchain : t.overflow_buckets_ (t.hash_fn_ k % t.capacity_) = front :: rest) :
    0 < t.capacity_ ∧
    ∃ t', Remove fuel t k = some t' ∧
      (t'.table_ ((t.hash_fn_ k % t.capacity_ + d) % t.capacity_)).occupied = true ∧
      (t'.table_ ((t.hash_fn_ k % t.capacity_ + d) % t.capacity_)).key = front.key ∧
      (t'.table_ ((t.hash_fn_ k % t.capacity_ + d) % t.capacity_)).value = front.value ∧
      (t'.table_ ((t.hash_fn_ k % t.capacity_ + d) % t.capacity_)).h_initial =
        front.h_initial ∧
      t'.overflow_buckets_ (t.hash_fn_ k % t.capacity_) = rest ∧
      (∀ b, b ≠ t.hash_fn_ k % t.capacity_ →
        t'.overflow_buckets_ b = t.overflow_buckets_ b) ∧
      (∀ j, j ≠ (t.hash_fn_ k % t.capacity_ + d) % t.capacity_ →
        t'.table_ j = t.table_ j) := by
  obtain ⟨hc0, -, -, hl⟩ := reachable_homes hcap h0 hr
  have hlive : front.occupied = true :=
    hl (t.hash_fn_ k % t.capacity_) front (by rw [hchain]; exact List.mem_cons_self _ _)
  refine ⟨by omega, ?_⟩
  unfold Remove
  simp only [hfound, hchain]
  refine ⟨_, rfl, ?_, ?_, ?_, ?_, ?_, ?_, ?_⟩
  · simp only [Function.update_same]
    exact hlive
  · simp only [Function.update_same]
  · simp only [Function.update_same]
  · simp only [Function.update_same]
  · simp only [Function.update_same]
  · exact fun b hb => Function.update_noteq hb _ _
  · exact fun j hj => Function.update_noteq hj _ _

/-- C10 at a concrete input: `Remove(0)` on `longChainTable`, reached by `Put(0, 1)`,
`Put(4, 2)`, `Put(8, 3)`, `Put(12, 4)`, moves key 8, the oldest entry of the chain of
bucket 0, into slot 0 and leaves key 12 alone in that chain. -/
theorem remove_promotes_oldest_witness :
    0 < longChainTable.capacity_ ∧
      ∃ t', Remove 0 longChainTable 0 = some t' ∧
        (t'.table_ 0).occupied = true ∧ (t'.table_ 0).key = 8 ∧ (t'.table_ 0).value = 3 ∧
        (t'.table_ 0).h_initial = 0 ∧ t'.overflow_buckets_ 0 = [⟨0, 2, true, 12, 4⟩] ∧
        (∀ b, b ≠ 0 → t'.overflow_buckets_ b = longChainTable.overflow_buckets_ b) ∧
        (∀ j, j ≠ 0 → t'.table_ j = longChainTable.table_ j) :=
  remove_promotes_oldest (emptyTable 4 1) longChainTable 0 0 0 ⟨0, 2, true, 8, 3⟩
    [⟨0, 2, true, 12, 4⟩] (by decide) (emptyTable_constructed 4 1)
    (Reachable.put 4 12 4 demoTable_reachable rfl) rfl rfl

/-- C11 (the concrete scenario). With capacity 4, threshold Dm = 1 and three distinct
keys `A`, `B`, `C` whose hash maps to bucket 0, starting from a freshly constructed table:
after `Put(A, 1)`, `Put(B, 2)`, `Put(C, 3)` slot 0 holds `A` with distance 0, slot 1 holds
`B` with distance 1, slots 2 and 3 are unoccupied and the chain of bucket 0 is `[C]`;
`Get(C)` is 3; after the following `Remove(A)` slot 0 holds `C` with value 3 and distance
0, the chain of bucket 0 is empty, `Get(B)` is 2 and `Get(A)` is the empty result. -/
theorem concrete_scenario [DecidableEq K] (t0 : RobinhoodHashTable K Nat) (A B C : K)
    (hcap : t0.capacity_ = 4) (hDm : t0.Dm_ = 1) (h0 : Constructed t0)
    (hA : t0.hash_fn_ A % 4 = 0) (hB : t0.hash_fn_ B % 4 = 0) (hC : t0.hash_fn_ C % 4 = 0)
    (hAB : A ≠ B) (hAC : A ≠ C) (hBC : B ≠ C) :
    ∃ t1 t2 t3 t4, Put 3 t0 A 1 = some t1 ∧ Put 3 t1 B 2 = some t2 ∧ Put 3 t2 C 3 = some t3 ∧
      (t3.table_ 0).occupied = true ∧ (t3.table_ 0).key = A ∧ (t3.table_ 0).value = 1 ∧
      (t3.table_ 0).distance.val = 0 ∧
      (t3.table_ 1).occupied = true ∧ (t3.table_ 1).key = B ∧ (t3.table_ 1).value = 2 ∧
      (t3.table_ 1).distance.val = 1 ∧
      (t3.table_ 2).occupied = false ∧ (t3.table_ 3).occupied = false ∧
      (t3.overflow_buckets_ 0).map (fun e => (e.key, e.value)) = [(C, 3)] ∧
      Get t3 C = some 3 ∧
      Remove 0 t3 A = some t4 ∧
      (t4.table_ 0).occupied = true ∧ (t4.table_ 0).key = C ∧ (t4.table_ 0).value = 3 ∧
      (t4.table_ 0).distance.val = 0 ∧ t4.overflow_buckets_ 0 = [] ∧
      Get t4 B = some 2 ∧ Get t4 A = none := by
  obtain ⟨cap, dm, tbl, ov, hash⟩ := t0
  simp only at hcap hDm hA hB hC
  subst hcap hDm
  have h00 : (tbl 0).occupied = false := h0.1 0 (by show 0 < 4; decide)
  have h01 : (tbl 1).occupied = false := h0.1 1 (by show 1 < 4; decide)
  have h02 : (tbl 2).occupied = false := h0.1 2 (by show 2 < 4; decide)
  have h03 : (tbl 3).occupied = false := h0.1 3 (by show 3 < 4; decide)
  have hov : ov 0 = [] := h0.2 0
  have e1 : Put 3 ⟨4, 1, tbl, ov, hash⟩ A 1 =
      some ⟨4, 1, Function.update tbl 0 ⟨0, 0, true, A, 1⟩, ov, hash⟩ := by
    unfold Put
    simp only [hA]
    simp [putLoop, h00]
  have e2 : Put 3 ⟨4, 1, Function.update tbl 0 ⟨0, 0, true, A, 1⟩, ov, hash⟩ B 2 =
      some ⟨4, 1, Function.update (Function.update tbl 0 ⟨0, 0, true, A, 1⟩) 1
        ⟨0, 1, true, B, 2⟩, ov, hash⟩ := by
    unfold Put
    simp only [hB]
    simp [putLoop, h01, toUInt8]
  have e3 : Put 3 ⟨4, 1, Function.update (Function.update tbl 0 ⟨0, 0, true, A, 1⟩) 1
        ⟨0, 1, true, B, 2⟩, ov, hash⟩ C 3 =
      some ⟨4, 1, Function.update (Function.update tbl 0 ⟨0, 0, true, A, 1⟩) 1
        ⟨0, 1, true, B, 2⟩, Function.update ov 0 [⟨0, 2, true, C, 3⟩], hash⟩ := by
    unfold Put
    simp only [hC]
    simp [putLoop, hov, toUInt8]
  have e4 : Remove 0 ⟨4, 1, Function.update (Function.update tbl 0 ⟨0, 0, true, A, 1⟩) 1
        ⟨0, 1, true, B, 2⟩, Function.update ov 0 [⟨0, 2, true, C, 3⟩], hash⟩ A =
      some ⟨4, 1, Function.update (Function.update (Function.update tbl 0 ⟨0, 0, true, A, 1⟩) 1
        ⟨0, 1, true, B, 2⟩) 0 ⟨0, 0, true, C, 3⟩,
        Function.update (Function.update ov 0 [⟨0, 2, true, C, 3⟩]) 0 [], hash⟩ := by
    unfold Remove
    dsimp only
    rw [hA]
    simp [probe, List.range_succ, List.find?, toUInt8]
  have g3 : Get (⟨4, 1, Function.update (Function.update tbl 0 ⟨0, 0, true, A, 1⟩) 1
        ⟨0, 1, true, B, 2⟩, Function.update ov 0 [⟨0, 2, true, C, 3⟩], hash⟩ :
        RobinhoodHashTable K Nat) C = some 3 := by
    unfold Get
    dsimp only
    rw [hC]
    simp [probe, List.range_succ, List.find?, hAC, hBC, hC]
  have g4 : Get (⟨4, 1, Function.update (Function.update (Function.update tbl 0 ⟨0, 0, true, A, 1⟩) 1
        ⟨0, 1, true, B, 2⟩) 0 ⟨0, 0, true, C, 3⟩,
        Function.update (Function.update ov 0 [⟨0, 2, true, C, 3⟩]) 0 [], hash⟩ :
        RobinhoodHashTable K Nat) B = some 2 := by
    unfold Get
    dsimp only
    rw [hB]
    simp [probe, List.range_succ, List.find?, hBC.symm, hB]
  have g5 : Get (⟨4, 1, Function.update (Function.update (Function.update tbl 0 ⟨0, 0, true, A, 1⟩) 1
        ⟨0, 1, true, B, 2⟩) 0 ⟨0, 0, true, C, 3⟩,
        Function.update (Function.update ov 0 [⟨0, 2, true, C, 3⟩]) 0 [], hash⟩ :
        RobinhoodHashTable K Nat) A = none := by
    unfold Get
    dsimp only
    rw [hA]
    simp [probe, List.range_succ, List.find?, hAC.symm, hAB.symm, hA]
  refine ⟨_, _, _, _, e1, e2, e3, ?_, ?_, ?_, ?_, ?_, ?_, ?_, ?_, ?_, ?_, ?_, g3, e4, ?_, ?_, ?_, ?_, ?_, g4, g5⟩ <;>
    simp [h02, h03]

/-- C11 at a concrete input: the identity hash on the empty table of capacity 4 and
threshold 1, with the keys 0, 4 and 8. -/
theorem concrete_scenario_witness :
    ∃ t1 t2 t3 t4, Put 3 (emptyTable 4 1) 0 1 = some t1 ∧ Put 3 t1 4 2 = some t2 ∧
      Put 3 t2 8 3 = some t3 ∧
      (t3.table_ 0).occupied = true ∧ (t3.table_ 0).key = 0 ∧ (t3.table_ 0).value = 1 ∧
      (t3.table_ 0).distance.val = 0 ∧
      (t3.table_ 1).occupied = true ∧ (t3.table_ 1).key = 4 ∧ (t3.table_ 1).value = 2 ∧
      (t3.table_ 1).distance.val = 1 ∧
      (t3.table_ 2).occupied = false ∧ (t3.table_ 3).occupied = false ∧
      (t3.overflow_buckets_ 0).map (fun e => (e.key, e.value)) = [(8, 3)] ∧
      Get t3 8 = some 3 ∧
      Remove 0 t3 0 = some t4 ∧
      (t4.table_ 0).occupied = true ∧ (t4.table_ 0).key = 8 ∧ (t4.table_ 0).value = 3 ∧
      (t4.table_ 0).distance.val = 0 ∧ t4.overflow_buckets_ 0 = [] ∧
      Get t4 4 = some 2 ∧ Get t4 0 = none :=
  concrete_scenario (emptyTable 4 1) 0 4 8 rfl rfl (emptyTable_constructed 4 1) rfl rfl rfl
    (by decide) (by decide) (by decide)

/-- C12 (Put terminates). For every capacity > 0, every threshold Dm <= 254, every table
state, full primary table included, and every key and value, the displacement loop of
`Put` reaches a return after finitely many iterations: there are a bound and a state such
that `Put` returns that state whenever it is given at least that many iterations, and it
never returns anything else. -/
theorem put_total (t : RobinhoodHashTable K V) (k : K) (v : V)
    (hcap : 0 < t.capacity_) (hDm : t.Dm_ ≤ 254) :
    ∃ bound t', (∀ fuel, bound ≤ fuel → Put fuel t k v = some t') ∧
      ∀ fuel t1, Put fuel t k v = some t1 → t1 = t' := by
  obtain ⟨n, t', hres⟩ := Put_terminates t k v hcap hDm
  refine ⟨n, t', fun m hm => putLoop_mono hres m hm, fun m t1 h1 => ?_⟩
  have h2 : Put (max n m) t k v = some t' := putLoop_mono hres _ (le_max_left n m)
  have h3 : Put (max n m) t k v = some t1 := putLoop_mono h1 _ (le_max_right n m)
  rw [h2] at h3
  exact (Option.some.inj h3).symm

/-- C12 at a concrete input: `Put(2, 9)` on `fullTable`, whose two slots are both taken,
returns after five iterations: key 2 takes slot 1, the evicted key 1 takes slot 0, and
key 0, evicted in turn, goes to the chain of bucket 0. -/
theorem put_total_witness :
    occupiedSlots fullTable = [0, 1] ∧
      (∃ bound t', (∀ fuel, bound ≤ fuel → Put fuel fullTable 2 9 = some t') ∧
        ∀ fuel t1, Put fuel fullTable 2 9 = some t1 → t1 = t') ∧
      ∃ t', Put 5 fullTable 2 9 = some t' ∧ (t'.table_ 1).key = 2 ∧
        (t'.table_ 0).key = 1 ∧ (t'.overflow_buckets_ 0).map (fun e => e.key) = [0] :=
  ⟨rfl, put_total fullTable 2 9 (by decide) (by decide), _, rfl, rfl, rfl, rfl⟩

/-- C13 (Get is sound and complete). On a table with capacity > 0 that satisfies
invariants 1-3, for every key `k`: `Get(k)` returns `v` if and only if an entry with key
`k` and value `v` is stored in an occupied primary slot or in some chain, and `Get(k)`
returns the empty result if and only if no stored entry has key `k`. (Dm < capacity is
not needed.) -/
theorem get_sound_and_complete [DecidableEq K] (t : RobinhoodHashTable K V) (k : K)
    (hcap : 0 < t.capacity_) (h1 : Inv1 t) (h2 : Inv2 t) (h3 : Inv3 t) :
    (∀ v, Get t k = some v ↔
      (∃ i, i < t.capacity_ ∧ (t.table_ i).occupied = true ∧ (t.table_ i).key = k ∧
        (t.table_ i).value = v) ∨
      (∃ b e, e ∈ t.overflow_buckets_ b ∧ e.key = k ∧ e.value = v)) ∧
    (Get t k = none ↔
      (∀ i, i < t.capacity_ → (t.table_ i).occupied = true → (t.table_ i).key ≠ k) ∧
      (∀ b e, e ∈ t.overflow_buckets_ b → e.key ≠ k)) := by
  have hlay : Lay t := ⟨slotLay_of_inv1 h1, chainLay_of_chainHome (chainHome_of_inv2 h2)⟩
  refine ⟨fun v => ⟨Get_sound hcap, Get_complete hcap hlay (func_of_inv3 h3 k)⟩, ?_, ?_⟩
  · intro hg
    refine ⟨fun i hi hocc hk => ?_, fun b e he hk => ?_⟩
    · obtain ⟨w, hw⟩ := Get_isSome hlay (Or.inl ⟨i, hi, hocc, hk, rfl⟩)
      rw [hg] at hw
      exact absurd hw (by simp)
    · obtain ⟨w, hw⟩ := Get_isSome hlay (Or.inr ⟨b, e, he, hk, rfl⟩)
      rw [hg] at hw
      exact absurd hw (by simp)
  · rintro ⟨hs, hc⟩
    refine Get_none hcap fun v hv => ?_
    rcases hv with ⟨i, hi, hocc, hk, _⟩ | ⟨b, e, he, hk, _⟩
    · exact hs i hi hocc hk
    · exact hc b e he hk

/-- C13 at a concrete input: key 8 on `demoTable`, where it sits in the chain of
bucket 0. -/
theorem get_sound_and_complete_witness :
    Get demoTable 8 = some 3 ∧
    (∀ v, Get demoTable 8 = some v ↔
      (∃ i, i < demoTable.capacity_ ∧ (demoTable.table_ i).occupied = true ∧
        (demoTable.table_ i).key = 8 ∧ (demoTable.table_ i).value = v) ∨
      (∃ b e, e ∈ demoTable.overflow_buckets_ b ∧ e.key = 8 ∧ e.value = v)) ∧
    (Get demoTable 8 = none ↔
      (∀ i, i < demoTable.capacity_ → (demoTable.table_ i).occupied = true →
        (demoTable.table_ i).key ≠ 8) ∧
      (∀ b e, e ∈ demoTable.overflow_buckets_ b → e.key ≠ 8)) :=
  ⟨rfl, get_sound_and_complete demoTable 8 (by decide) demoTable_inv1 demoTable_inv2
    demoTable_inv3⟩

/-- C14 (removal from overflow). For every table state with capacity > 0 and key `k`
such that no occupied slot of the probe window `home(k) .. home(k) + Dm` holds `k`,
`Remove(k)` returns, leaves the primary table and every chain other than the one keyed by
`home(k)` unchanged, and in the chain keyed by `home(k)`, a bucket index below the
capacity, deletes exactly the first entry with key `k`, keeping the entries before it and
after it in their order; when that chain has no entry with key `k` it stays as it is.
(At capacity 0 the source computes `hash % 0` and no call returns.) -/
theorem remove_from_overflow [DecidableEq K] (t : RobinhoodHashTable K V) (k : K) (fuel : Nat)
    (hcap : 0 < t.capacity_)
    (hwin : ∀ d, d ≤ t.Dm_ →
      ¬ ((t.table_ ((t.hash_fn_ k % t.capacity_ + d) % t.capacity_)).occupied = true ∧
        (t.table_ ((t.hash_fn_ k % t.capacity_ + d) % t.capacity_)).key = k)) :
    t.hash_fn_ k % t.capacity_ < t.capacity_ ∧
    ∃ t', Remove fuel t k = some t' ∧
      t'.table_ = t.table_ ∧
      (∀ b, b ≠ t.hash_fn_ k % t.capacity_ →
        t'.overflow_buckets_ b = t.overflow_buckets_ b) ∧
      (((∀ e, e ∈ t.overflow_buckets_ (t.hash_fn_ k % t.capacity_) → e.key ≠ k) ∧
          t'.overflow_buckets_ (t.hash_fn_ k % t.capacity_) =
            t.overflow_buckets_ (t.hash_fn_ k % t.capacity_)) ∨
        ∃ before e after,
          t.overflow_buckets_ (t.hash_fn_ k % t.capacity_) = before ++ e :: after ∧
          (∀ x, x ∈ before → x.key ≠ k) ∧ e.key = k ∧
          t'.overflow_buckets_ (t.hash_fn_ k % t.capacity_) = before ++ after) := by
  have hp := (probe_eq_none_iff t k _).mpr hwin
  refine ⟨Nat.mod_lt _ hcap, ?_⟩
  unfold Remove
  simp only [hp]
  refine ⟨_, rfl, rfl, fun b hb => Function.update_noteq hb _ _, ?_⟩
  simp only [Function.update_same]
  by_cases hex : ∃ e, e ∈ t.overflow_buckets_ (t.hash_fn_ k % t.capacity_) ∧ e.key = k
  · obtain ⟨e, he, hk⟩ := hex
    obtain ⟨a, l1, l2, hn, hpa, hl, her⟩ :=
      List.exists_of_eraseP (p := fun x : Entry K V => decide (x.key = k)) he (by simpa using hk)
    refine Or.inr ⟨l1, a, l2, hl, fun x hx => ?_, by simpa using hpa, her⟩
    simpa using hn x hx
  · have hall : ∀ e, e ∈ t.overflow_buckets_ (t.hash_fn_ k % t.capacity_) → e.key ≠ k :=
      fun e he hk => hex ⟨e, he, hk⟩
    refine Or.inl ⟨hall, ?_⟩
    exact List.eraseP_of_forall_not fun e he => by simpa using hall e he

/-- C14 at a concrete input: `Remove(12)` on `longChainTable`, whose chain of bucket 0
holds key 8 and then key 12, leaves that chain with key 8 alone. -/
theorem remove_from_overflow_witness :
    (longChainTable.overflow_buckets_ 0).map (fun e => e.key) = [8, 12] ∧
    (∃ t', Remove 0 longChainTable 12 = some t' ∧
      (t'.overflow_buckets_ 0).map (fun e => e.key) = [8]) ∧
    longChainTable.hash_fn_ 12 % longChainTable.capacity_ < longChainTable.capacity_ ∧
    ∃ t', Remove 0 longChainTable 12 = some t' ∧
      t'.table_ = longChainTable.table_ ∧
      (∀ b, b ≠ longChainTable.hash_fn_ 12 % longChainTable.capacity_ →
        t'.overflow_buckets_ b = longChainTable.overflow_buckets_ b) ∧
      (((∀ e, e ∈ longChainTable.overflow_buckets_
            (longChainTable.hash_fn_ 12 % longChainTable.capacity_) → e.key ≠ 12) ∧
          t'.overflow_buckets_ (longChainTable.hash_fn_ 12 % longChainTable.capacity_) =
            longChainTable.overflow_buckets_
              (longChainTable.hash_fn_ 12 % longChainTable.capacity_)) ∨
        ∃ before e after,
          longChainTable.overflow_buckets_
            (longChainTable.hash_fn_ 12 % longChainTable.capacity_) = before ++ e :: after ∧
          (∀ x, x ∈ before → x.key ≠ 12) ∧ e.key = 12 ∧
          t'.overflow_buckets_ (longChainTable.hash_fn_ 12 % longChainTable.capacity_) =
            before ++ after) :=
  ⟨rfl, ⟨_, rfl, rfl⟩, remove_from_overflow longChainTable 12 0 (by decide) (by decide)⟩

/-- C20 (Remove of an absent key is a no-op). For every table state and every key `k`
that matches no occupied slot of the probe window of `home(k)` and no entry of the chain
keyed by `home(k)`, `Remove(k)` returns, and the primary table and every chain after it
are identical to those before; the whole state is. (The claim restricts to
capacity > 0, the states in which the source's `hash % capacity_` is defined; the
statement holds for them in particular.) -/
theorem remove_absent_is_noop [DecidableEq K] (t : RobinhoodHashTable K V) (k : K) (fuel : Nat)
    (hwin : ∀ d, d ≤ t.Dm_ →
      ¬ ((t.table_ ((t.hash_fn_ k % t.capacity_ + d) % t.capacity_)).occupied = true ∧
        (t.table_ ((t.hash_fn_ k % t.capacity_ + d) % t.capacity_)).key = k))
    (hchain : ∀ e, e ∈ t.overflow_buckets_ (t.hash_fn_ k % t.capacity_) → e.key ≠ k) :
    ∃ t', Remove fuel t k = some t' ∧ t'.table_ = t.table_ ∧
      (∀ b, t'.overflow_buckets_ b = t.overflow_buckets_ b) ∧ t' = t := by
  have hp := (probe_eq_none_iff t k _).mpr hwin
  have her : (t.overflow_buckets_ (t.hash_fn_ k % t.capacity_)).eraseP
      (fun entry => decide (entry.key = k)) =
      t.overflow_buckets_ (t.hash_fn_ k % t.capacity_) :=
    List.eraseP_of_forall_not fun e he => by simpa using hchain e he
  unfold Remove
  simp only [hp, her, Function.update_eq_self]
  exact ⟨t, rfl, rfl, fun _ => rfl, rfl⟩

/-- C20 at a concrete input: `Remove(12)` on `demoTable`, which holds the keys 0, 4
and 8, gives `demoTable` back. -/
theorem remove_absent_is_noop_witness :
    ∃ t', Remove 0 demoTable 12 = some t' ∧ t'.table_ = demoTable.table_ ∧
      (∀ b, t'.overflow_buckets_ b = demoTable.overflow_buckets_ b) ∧ t' = demoTable :=
  remove_absent_is_noop demoTable 12 0 (by decide) (by decide)

/-- C15 (the claim fails on the code). `Remove` is declared `void`: on `demoTable`, where
key 12 is stored nowhere and key 0 is stored in slot 0, the call `Remove(12)` and the call
`Remove(0)`, which deletes key 0, hand the same outcome back to the caller. -/
theorem remove_outcome_same_for_absent_and_present :
    (∀ w, ¬ Stored demoTable 12 w) ∧ Stored demoTable 0 1 ∧
      (∃ t', Remove 0 demoTable 0 = some t' ∧ Get t' 0 = none) ∧
      (RemoveCall 0 demoTable 12).map Prod.fst = (RemoveCall 0 demoTable 0).map Prod.fst :=
  ⟨demoTable_fresh12, Or.inl ⟨0, by decide, rfl, rfl, rfl⟩, ⟨_, rfl, rfl⟩, rfl⟩

/-- C15, amended. For every table state with capacity > 0 and every key `k` stored
nowhere in the primary table or in a chain, the call `Remove(k)` returns to its caller
without a result (the function is `void`) and leaves the state as it was: the absence of
the key is not reported. -/
theorem remove_absent_is_silent [DecidableEq K] (t : RobinhoodHashTable K V) (k : K)
    (fuel : Nat) (hcap : 0 < t.capacity_) (habs : ∀ w, ¬ Stored t k w) :
    RemoveCall fuel t k = some ((), t) := by
  have hp : probe t k (t.hash_fn_ k % t.capacity_) = none :=
    (probe_eq_none_iff t k _).mpr fun d _ hd =>
      habs _ (Or.inl ⟨_, Nat.mod_lt _ hcap, hd.1, hd.2, rfl⟩)
  have her : (t.overflow_buckets_ (t.hash_fn_ k % t.capacity_)).eraseP
      (fun entry => decide (entry.key = k)) =
      t.overflow_buckets_ (t.hash_fn_ k % t.capacity_) :=
    List.eraseP_of_forall_not fun e he => by
      simpa using fun hk : e.key = k => habs _ (Or.inr ⟨_, e, he, hk, rfl⟩)
  unfold RemoveCall Remove
  simp only [hp, her, Function.update_eq_self]
  rfl

/-- C15, amended, at a concrete input: `Remove(12)` on `demoTable`. -/
theorem remove_absent_is_silent_witness :
    RemoveCall 0 demoTable 12 = some ((), demoTable) :=
  remove_absent_is_silent demoTable 12 0 (by decide) demoTable_fresh12

/-- C17 (the claim fails on the code). Two iterations of the loop of `Put` that do not
complete the operation and do not raise the candidate's distance. On `evictTable` the
third iteration of `Put(8, 9)` probes slot 2 with the candidate at distance 2, swaps it
with the resident key 2 of distance 0, and goes on with key 2 at distance 1. On
`saturatedTable`, whose threshold 255 does not fit the distance field, a candidate at
distance 255 meets a resident at distance 255 and goes on at distance 0. -/
theorem put_iteration_lowers_distance :
    Put 5 evictTable 8 9 = putLoop 3 evictTable 0 ⟨0, 2, true, 8, 9⟩ ∧
      (∃ t1, putStep evictTable 0 ⟨0, 2, true, 8, 9⟩ = Sum.inr (t1, 2, ⟨2, 1, true, 2, 3⟩)) ∧
      putStep saturatedTable 0 ⟨0, 255, true, 1, 1⟩ =
        Sum.inr (saturatedTable, 0, ⟨0, 0, true, 1, 1⟩) :=
  ⟨rfl, ⟨_, rfl⟩, rfl⟩

/-- C17, amended. For every table state with threshold Dm <= 254 and every iteration of
the loop of `Put` that does not complete the operation: the probed slot is occupied and
the loop goes on from the iteration's result; without a swap the table and the routing
variable stay and the candidate keeps key, value and home with its distance raised by
exactly one; with a swap the slot takes the candidate, the new candidate is the evicted
resident with its own key, value and home, routed by its own home, and its distance is
the resident's distance plus one, which is at most the distance of the old candidate. -/
theorem put_iteration_distance (t t1 : RobinhoodHashTable K V) (h h1 : Nat)
    (cur c1 : Entry K V) (hDm : t.Dm_ ≤ 254)
    (hstep : putStep t h cur = Sum.inr (t1, h1, c1)) :
    (∀ fuel, putLoop (fuel + 1) t h cur = putLoop fuel t1 h1 c1) ∧
      (t.table_ ((h + cur.distance.val) % t.capacity_)).occupied = true ∧
      (¬ (t.table_ ((h + cur.distance.val) % t.capacity_)).distance.val < cur.distance.val →
        t1 = t ∧ h1 = h ∧ c1.key = cur.key ∧ c1.value = cur.value ∧
        c1.h_initial = cur.h_initial ∧ c1.distance.val = cur.distance.val + 1) ∧
      ((t.table_ ((h + cur.distance.val) % t.capacity_)).distance.val < cur.distance.val →
        t1.table_ ((h + cur.distance.val) % t.capacity_) = cur ∧
        c1.key = (t.table_ ((h + cur.distance.val) % t.capacity_)).key ∧
        c1.value = (t.table_ ((h + cur.distance.val) % t.capacity_)).value ∧
        c1.h_initial = (t.table_ ((h + cur.distance.val) % t.capacity_)).h_initial ∧
        h1 = c1.h_initial ∧
        c1.distance.val =
          (t.table_ ((h + cur.distance.val) % t.capacity_)).distance.val + 1 ∧
        c1.distance.val ≤ cur.distance.val) := by
  refine ⟨fun fuel => by rw [putLoop_succ, hstep], ?_⟩
  simp only [putStep, transactional_swap] at hstep
  split_ifs at hstep with g1 g2 g3
  · simp only [Sum.inr.injEq, Prod.mk.injEq] at hstep
    obtain ⟨rfl, rfl, rfl⟩ := hstep
    have hlt := toUInt8_succ (t.table_ ((h + cur.distance.val) % t.capacity_)).distance.val
      (by omega)
    refine ⟨by simpa using g2, fun hn => absurd g3 hn,
      fun _ => ⟨?_, rfl, rfl, rfl, rfl, hlt, ?_⟩⟩
    · simp only [Function.update_same]
    · simp only [hlt]; omega
  · simp only [Sum.inr.injEq, Prod.mk.injEq] at hstep
    obtain ⟨rfl, rfl, rfl⟩ := hstep
    refine ⟨by simpa using g2, fun _ => ⟨rfl, rfl, rfl, rfl, rfl, ?_⟩, fun hl => absurd hl g3⟩
    exact toUInt8_succ _ (by omega)

/-- C17, amended, at a concrete input: the third iteration of `Put(8, 9)` on
`evictTable`, a swap: the candidate key 8 at distance 2 takes slot 2, and the loop goes on
with the evicted key 2, routed by its home 2, at distance 0 + 1 = 1 <= 2. -/
theorem put_iteration_distance_witness :
    Reachable (emptyTable 4 2) evictTable ∧
      (∀ fuel, putLoop (fuel + 1) evictTable 0 ⟨0, 2, true, 8, 9⟩ =
        putLoop fuel { evictTable with
          table_ := Function.update evictTable.table_ 2 ⟨0, 2, true, 8, 9⟩ } 2
          ⟨2, 1, true, 2, 3⟩) ∧
      ((evictTable.table_ 2).key = 2 ∧ (evictTable.table_ 2).distance.val = 0) ∧
      ((2 : Nat) = (evictTable.table_ 2).key ∧ (3 : Nat) = (evictTable.table_ 2).value ∧
        (2 : Nat) = (evictTable.table_ 2).h_initial ∧ (2 : Nat) = 2 ∧
        (1 : Nat) = (evictTable.table_ 2).distance.val + 1 ∧ (1 : Nat) ≤ 2) :=
  ⟨evictTable_reachable,
    (put_iteration_distance evictTable _ 0 2 ⟨0, 2, true, 8, 9⟩ ⟨2, 1, true, 2, 3⟩
      (by decide) rfl).1, ⟨rfl, rfl⟩,
    ((put_iteration_distance evictTable _ 0 2 ⟨0, 2, true, 8, 9⟩ ⟨2, 1, true, 2, 3⟩
      (by decide) rfl).2.2.2 (by decide)).2⟩

/-- C19 (Put adds exactly one entry and relocates the rest intact). For every capacity
> 0, threshold Dm <= 254, table state, key `k` and value `v`, `Put(k, v)` returns, no
chain that was non-empty becomes empty, and the multiset of (key, value, home) triples
over all occupied primary slots and all chain entries after it, counted over any finite
set of chain keys that contains every non-empty chain, is the multiset before plus the
single triple `(k, v, hash(k) mod capacity)`: every entry that was stored, evicted or
not, is still stored with its own key, value and home. -/
theorem put_adds_one_triple (t : RobinhoodHashTable K V) (k : K) (v : V)
    (hcap : 0 < t.capacity_) (hDm : t.Dm_ ≤ 254) :
    (∃ fuel t', Put fuel t k v = some t') ∧
      ∀ fuel t', Put fuel t k v = some t' →
        t'.capacity_ = t.capacity_ ∧
        (∀ b, t.overflow_buckets_ b ≠ [] → t'.overflow_buckets_ b ≠ []) ∧
        ∀ S : Finset Nat, (∀ b, t'.overflow_buckets_ b ≠ [] → b ∈ S) →
          storedTriples t' S =
            storedTriples t S + {(k, v, t.hash_fn_ k % t.capacity_)} := by
  refine ⟨Put_terminates t k v hcap hDm, fun fuel t' hres => ?_⟩
  unfold Put at hres
  simp only at hres
  exact ⟨(putLoop_frame hres).1, putLoop_chains_grow hres,
    fun S hS => putLoop_triples hcap rfl hres S hS⟩

/-- C19 at a concrete input: `Put(4, 4)` on `preSwapTable`, which holds the keys 0, 1
and 5; the new key takes slot 1, key 1 is evicted from it and ends in the chain of its
home 1. -/
theorem put_adds_one_triple_witness :
    storedTriples preSwapTable {1} = {(0, 1, 0), (1, 2, 1), (5, 3, 1)} ∧
      (∃ fuel t', Put fuel preSwapTable 4 4 = some t') ∧
      ∀ fuel t', Put fuel preSwapTable 4 4 = some t' →
        t'.capacity_ = preSwapTable.capacity_ ∧
        (∀ b, preSwapTable.overflow_buckets_ b ≠ [] → t'.overflow_buckets_ b ≠ []) ∧
        ∀ S : Finset Nat, (∀ b, t'.overflow_buckets_ b ≠ [] → b ∈ S) →
          storedTriples t' S =
            storedTriples preSwapTable S +
              {(4, 4, preSwapTable.hash_fn_ 4 % preSwapTable.capacity_)} :=
  ⟨by decide, put_adds_one_triple preSwapTable 4 4 (by decide) (by decide)⟩

/-- C18 (backward-shift deletion equals its reference definition). On a table with
capacity > 0 and Dm < capacity that satisfies invariant 1, for a key `k` that the probe
finds in the primary table at slot `i = (home(k) + d) mod capacity` while the chain of
`home(k)` is empty: there is a first position `j`, `m <= Dm - d` slots after `i`
cyclically, whose successor is the window end `(home(k) + Dm + 1) mod capacity`, is
unoccupied or holds an entry with distance 0; `Remove(k)` returns, and after it each of
the `m` slots from `i` up to but excluding `j` holds the entry formerly in the next slot,
occupied, with key, value and home unchanged and its distance reduced by exactly one,
slot `j` is unoccupied, every other slot is unchanged, the chains are unchanged, and
invariant 1 still holds. -/
theorem remove_backward_shift [DecidableEq K] (t : RobinhoodHashTable K V) (k : K) (d : Nat)
    (hcap : 0 < t.capacity_) (hDm : t.Dm_ < t.capacity_) (h1 : Inv1 t)
    (hp : probe t k (t.hash_fn_ k % t.capacity_) = some d)
    (hch : t.overflow_buckets_ (t.hash_fn_ k % t.capacity_) = []) :
    ∃ m, m ≤ t.Dm_ - d ∧
      refShiftStop t (t.hash_fn_ k % t.capacity_)
        ((t.hash_fn_ k % t.capacity_ + d + m) % t.capacity_) ∧
      (∀ n, n < m → ¬ refShiftStop t (t.hash_fn_ k % t.capacity_)
        ((t.hash_fn_ k % t.capacity_ + d + n) % t.capacity_)) ∧
      (∃ fuel t', Remove fuel t k = some t') ∧
      ∀ fuel t', Remove fuel t k = some t' →
        (∀ n, n < m →
          (t'.table_ ((t.hash_fn_ k % t.capacity_ + d + n) % t.capacity_)).occupied = true ∧
          (t'.table_ ((t.hash_fn_ k % t.capacity_ + d + n) % t.capacity_)).key =
            (t.table_ ((t.hash_fn_ k % t.capacity_ + d + n + 1) % t.capacity_)).key ∧
          (t'.table_ ((t.hash_fn_ k % t.capacity_ + d + n) % t.capacity_)).value =
            (t.table_ ((t.hash_fn_ k % t.capacity_ + d + n + 1) % t.capacity_)).value ∧
          (t'.table_ ((t.hash_fn_ k % t.capacity_ + d + n) % t.capacity_)).h_initial =
            (t.table_ ((t.hash_fn_ k % t.capacity_ + d + n + 1) % t.capacity_)).h_initial ∧
          (t'.table_ ((t.hash_fn_ k % t.capacity_ + d + n) % t.capacity_)).distance.val + 1 =
            (t.table_ ((t.hash_fn_ k % t.capacity_ + d + n + 1) % t.capacity_)).distance.val) ∧
        (t'.table_ ((t.hash_fn_ k % t.capacity_ + d + m) % t.capacity_)).occupied = false ∧
        (∀ x, (∀ n, n ≤ m → x ≠ (t.hash_fn_ k % t.capacity_ + d + n) % t.capacity_) →
          t'.table_ x = t.table_ x) ∧
        t'.overflow_buckets_ = t.overflow_buckets_ ∧
        Inv1 t' := by
  classical
  obtain ⟨hd, -, -⟩ := probe_some hp
  generalize hh : t.hash_fn_ k % t.capacity_ = h at hp hch ⊢
  have hi : (h + d) % t.capacity_ < t.capacity_ := Nat.mod_lt _ hcap
  have hpos : ∀ n, ((h + d) % t.capacity_ + n) % t.capacity_ = (h + d + n) % t.capacity_ :=
    fun n => Nat.mod_add_mod _ _ _
  have hend : refShiftStop t h ((h + d + (t.Dm_ - d)) % t.capacity_) := by
    refine Or.inl ?_
    rw [Nat.mod_add_mod]
    congr 1
    omega
  have hex : ∃ n, refShiftStop t h ((h + d + n) % t.capacity_) := ⟨_, hend⟩
  have hle : Nat.find hex ≤ t.Dm_ - d := Nat.find_min' hex hend
  have hstop := Nat.find_spec hex
  have hgo : ∀ n, n < Nat.find hex → ¬ refShiftStop t h ((h + d + n) % t.capacity_) :=
    fun n hn => Nat.find_min hex hn
  generalize Nat.find hex = m at hle hstop hgo
  have hw : m + 1 < t.capacity_ ∨
      ((h + d) % t.capacity_ + (m + 1)) % t.capacity_ = (h + t.Dm_ + 1) % t.capacity_ := by
    by_cases hlt : m < t.Dm_ - d
    · exact Or.inl (by omega)
    · refine Or.inr ?_
      rw [Nat.mod_add_mod]
      congr 1
      omega
  obtain ⟨t1, hrun, hshift, hframe⟩ := shiftLoop_closed h m t ((h + d) % t.capacity_) hi
    (by omega) (fun n hn => by rw [hpos]; exact hgo n hn) (by rw [hpos]; exact hstop) hw
    (m + 1) (Nat.lt_succ_self m)
  simp only [hpos] at hrun hshift hframe
  obtain ⟨-, -, -, hov, -, hinv, -⟩ := shift_spec hcap hi h1 hrun
  have hrem : Remove (m + 1) t k = some (vacate t1 ((h + d + m) % t.capacity_)) := by
    unfold Remove
    simp only [hh, hp, hch, hrun]
    rfl
  refine ⟨m, hle, hstop, hgo, ⟨_, _, hrem⟩, fun fuel t' hres => ?_⟩
  have h2 := Remove_mono hres (max fuel (m + 1)) (le_max_left _ _)
  rw [Remove_mono hrem (max fuel (m + 1)) (le_max_right _ _)] at h2
  obtain rfl := Option.some.inj h2
  refine ⟨fun n hn => ?_, ?_, fun x hx => ?_, hov, hinv⟩
  · have hne : (h + d + n) % t.capacity_ ≠ (h + d + m) % t.capacity_ := by
      intro he
      have := add_mod_ne_self (Nat.mod_lt (h + d + n) hcap) (j := m - n) (by omega) (by omega)
      rw [Nat.mod_add_mod] at this
      apply this
      rw [he]
      congr 1
      omega
    have hg := hgo n hn
    unfold refShiftStop at hg
    simp only [not_or, Nat.mod_add_mod] at hg
    obtain ⟨-, g2, g3⟩ := hg
    have hlt := (t.table_ ((h + d + n + 1) % t.capacity_)).distance.isLt
    simp only [vacate, Function.update_noteq hne, hshift n hn, shiftedEntry, Nat.mod_add_mod]
    refine ⟨by simpa using g2, trivial, trivial, trivial, ?_⟩
    rw [toUInt8_pred _ hlt (by omega)]
    omega
  · simp only [vacate, Function.update_same]
  · simp only [vacate, Function.update_noteq (hx m (le_refl m))]
    exact hframe x fun n hn => hx n (by omega)

/-- C18 at a concrete input: `Remove(0)` on `shiftTable`, where the keys 0, 4 and 1 sit
in slots 0, 1 and 2: keys 4 and 1 move back by one slot and slot 2 is vacated. -/
theorem remove_backward_shift_witness :
    (∃ t', Remove 3 shiftTable 0 = some t' ∧ (t'.table_ 0).key = 4 ∧
      (t'.table_ 1).key = 1 ∧ occupiedSlots t' = [0, 1]) ∧
    ∃ m, m ≤ shiftTable.Dm_ - 0 ∧
      refShiftStop shiftTable (shiftTable.hash_fn_ 0 % shiftTable.capacity_)
        ((shiftTable.hash_fn_ 0 % shiftTable.capacity_ + 0 + m) % shiftTable.capacity_) ∧
      (∀ n, n < m → ¬ refShiftStop shiftTable (shiftTable.hash_fn_ 0 % shiftTable.capacity_)
        ((shiftTable.hash_fn_ 0 % shiftTable.capacity_ + 0 + n) % shiftTable.capacity_)) ∧
      (∃ fuel t', Remove fuel shiftTable 0 = some t') ∧
      ∀ fuel t', Remove fuel shiftTable 0 = some t' →
        (∀ n, n < m →
          (t'.table_ ((shiftTable.hash_fn_ 0 % shiftTable.capacity_ + 0 + n) %
            shiftTable.capacity_)).occupied = true ∧
          (t'.table_ ((shiftTable.hash_fn_ 0 % shiftTable.capacity_ + 0 + n) %
            shiftTable.capacity_)).key =
            (shiftTable.table_ ((shiftTable.hash_fn_ 0 % shiftTable.capacity_ + 0 + n + 1) %
              shiftTable.capacity_)).key ∧
          (t'.table_ ((shiftTable.hash_fn_ 0 % shiftTable.capacity_ + 0 + n) %
            shiftTable.capacity_)).value =
            (shiftTable.table_ ((shiftTable.hash_fn_ 0 % shiftTable.capacity_ + 0 + n + 1) %
              shiftTable.capacity_)).value ∧
          (t'.table_ ((shiftTable.hash_fn_ 0 % shiftTable.capacity_ + 0 + n) %
            shiftTable.capacity_)).h_initial =
            (shiftTable.table_ ((shiftTable.hash_fn_ 0 % shiftTable.capacity_ + 0 + n + 1) %
              shiftTable.capacity_)).h_initial ∧
          (t'.table_ ((shiftTable.hash_fn_ 0 % shiftTable.capacity_ + 0 + n) %
            shiftTable.capacity_)).distance.val + 1 =
            (shiftTable.table_ ((shiftTable.hash_fn_ 0 % shiftTable.capacity_ + 0 + n + 1) %
              shiftTable.capacity_)).distance.val) ∧
        (t'.table_ ((shiftTable.hash_fn_ 0 % shiftTable.capacity_ + 0 + m) %
          shiftTable.capacity_)).occupied = false ∧
        (∀ x, (∀ n, n ≤ m →
            x ≠ (shiftTable.hash_fn_ 0 % shiftTable.capacity_ + 0 + n) % shiftTable.capacity_) →
          t'.table_ x = shiftTable.table_ x) ∧
        t'.overflow_buckets_ = shiftTable.overflow_buckets_ ∧
        Inv1 t' :=
  ⟨⟨_, rfl, rfl, rfl, rfl⟩,
    remove_backward_shift shiftTable 0 0 (by decide) (by decide) shiftTable_inv1 rfl rfl⟩

end store
